import Mathlib

/-!
Verification development for the `ruba` analytical query engine.

We give a shallow embedding of the two core source files,
`src/columns/strings.rs` (byte-packed and dictionary string columns) and
`src/engine/query_plan.rs` (plan compilation, grouping-key bit packing and
plan lowering), and settle a list of claims about them.

Modelling conventions:
* Rust `i64` values are modelled as `Int` with explicit wrapping (`wrap64`)
  where two's-complement overflow matters.
* Rust byte buffers (`Vec<u8>`) are modelled as `List Nat`; a Rust `&str` is
  treated at the byte level (as `List Nat`), since `StringPacker` operates on
  raw UTF-8 bytes and rebuilds string slices with `from_utf8_unchecked`,
  which is the identity on the underlying bytes.
* Fallible code (`Result`) is modelled with `Except`; a Rust panic that the
  surrounding code can actually reach is modelled as `Except.error` or
  `Option.none`, as documented at each definition.
* Types and functions from this repository that are used by the two files
  above but whose sources are not part of the snapshot (`engine/types.rs`,
  `mem_store/column.rs`, `engine/vector_op.rs`, `syntax/expression.rs`,
  `columns/mod.rs`) are modelled from the spec; each such definition carries
  a doc comment starting with `Modelled from the spec:`.
-/

namespace Ruba

/-! ## Byte-packed string storage (`src/columns/strings.rs`) -/

/-- `StringPacker` from `strings.rs`: values are concatenated bytes, each
value terminated by a single zero byte.  `data : Vec<u8>` is modelled as
`List Nat`. -/
structure StringPacker where
  data : List Nat
deriving Repr, DecidableEq

namespace StringPacker

/-- `StringPacker::new`. -/
def new : StringPacker := { data := [] }

/-- `StringPacker::push`: append the value's bytes, then a zero terminator.
(`shrink_to_fit` only affects capacity and is not modelled.) -/
def push (sp : StringPacker) (string : List Nat) : StringPacker :=
  { data := sp.data ++ string ++ [0] }

/-- `StringPacker::from_strings`: push each value in order, a missing value
(`None`) is pushed as the empty string. -/
def from_strings (strings : List (Option (List Nat))) : StringPacker :=
  strings.foldl (fun sp s => sp.push (s.getD [])) new

end StringPacker

/-- `StringPackerIterator` from `strings.rs`: a borrowed view of the data
plus the scan cursor `curr_index`. -/
structure StringPackerIterator where
  data : List Nat
  curr_index : Nat
deriving Repr, DecidableEq

/-- `StringPacker::iter`: a fresh iterator always starts at offset 0. -/
def StringPacker.iter (sp : StringPacker) : StringPackerIterator :=
  { data := sp.data, curr_index := 0 }

namespace StringPackerIterator

/-- `StringPackerIterator::next`.  If the cursor has reached the end of the
buffer the iteration is over (`Except.ok none`).  Otherwise the code scans
forward (`while self.data[index] != 0 ( index += 1 )`) for the next zero
byte; if no zero byte exists up to the end of the buffer, the Rust loop
indexes out of bounds and panics, which we model as `Except.error ()`.
On success it yields the bytes strictly before the terminator and a cursor
placed just after the terminator. -/
def next (it : StringPackerIterator) :
    Except Unit (Option (List Nat × StringPackerIterator)) :=
  if it.curr_index ≥ it.data.length then .ok none
  else
    match (it.data.drop it.curr_index).findIdx? (· = 0) with
    | none => .error ()
    | some r =>
        let result := (it.data.drop it.curr_index).take r
        .ok (some (result, { data := it.data, curr_index := it.curr_index + r + 1 }))

lemma next_yield_lt {it it' : StringPackerIterator} {s : List Nat}
    (h : it.next = .ok (some (s, it'))) :
    it.curr_index < it.data.length ∧ it.curr_index < it'.curr_index ∧
      it'.data = it.data := by
  unfold next at h
  split at h
  · simp at h
  · next hlt =>
    split at h
    · simp at h
    · next r hr =>
      simp only [Except.ok.injEq, Option.some.injEq, Prod.mk.injEq] at h
      obtain ⟨-, h2⟩ := h
      refine ⟨by omega, ?_, by rw [← h2]⟩
      rw [← h2]
      simp only
      omega

/-- Run the iterator to exhaustion, collecting all yielded values; an
out-of-bounds scan (`Except.error`) is propagated. -/
def collect (it : StringPackerIterator) : Except Unit (List (List Nat)) :=
  match h : it.next with
  | .error _ => .error ()
  | .ok none => .ok []
  | .ok (some (s, it')) =>
      have := next_yield_lt h
      (collect it').map (s :: ·)
termination_by it.data.length + 1 - it.curr_index
decreasing_by
  obtain ⟨h1, h2, h3⟩ := this
  rw [h3]
  omega

end StringPackerIterator

/-! ## Dictionary-encoded strings and `build_string_column` -/

/-- `MAX_UNIQUE_STRINGS` from `strings.rs`. -/
def MAX_UNIQUE_STRINGS : Nat := 10000

/-- Modelled from the spec: `UniqueValues` (from `columns/mod.rs`, not in
the snapshot) tracks the set of distinct values of the input, and
`get_values()` returns `Some` of that set exactly when the distinct-value
count (including a representation for null) stayed within the
`MAX_UNIQUE_STRINGS` ceiling.  We model the value handed to
`build_string_column` directly as that optional distinct-value list. -/
def uniqueValuesOf (values : List (Option (List Nat))) :
    Option (List (Option (List Nat))) :=
  let d := values.dedup
  if d.length ≤ MAX_UNIQUE_STRINGS then some d else none

/-- Result of `build_string_column`: which column representation was built. -/
inductive StringColumn where
  | packed (sp : StringPacker)
  | dictEncoded (mapping : List (Option (List Nat))) (codes : List Nat)
deriving Repr, DecidableEq

/-- `build_string_column` from `strings.rs`.  When `unique_values`
carries the distinct-value set (cardinality within the ceiling), the code
is `panic!("TODO")` — the call building `DictEncodedStrings` is commented
out — modelled as `Except.error "TODO"`.  Otherwise it byte-packs. -/
def build_string_column (values : List (Option (List Nat)))
    (unique_values : Option (List (Option (List Nat)))) :
    Except String StringColumn :=
  match unique_values with
  | some _ => .error "TODO"
  | none => .ok (.packed (StringPacker.from_strings values))

/-! ## Type & codec model (`engine/types.rs`, `mem_store/column.rs`) -/

/-- Modelled from the spec: `BasicType`, the logical kind of a value.  The
spec names Integer, String and Boolean; a `null` kind is included so that
the `Null` literal has a logical type (it matches no comparison
signature). -/
inductive BasicType where
  | integer
  | string
  | boolean
  | null
deriving Repr, DecidableEq

/-- Modelled from the spec: `EncodingType`, the closed tag set identifying
the physical representation a buffer holds (integer widths, string,
boolean bit vector). -/
inductive EncodingType where
  | u8
  | u16
  | u32
  | i64
  | str
  | bitVec
deriving Repr, DecidableEq

/-- Values.  Rust `RawVal` has `Int`, `Str` and `Null` variants; plan
evaluation additionally produces booleans, so we use one value type for
both roles (plan-level strings are Lean `String`s). -/
inductive Val where
  | int (i : Int)
  | str (s : String)
  | boolean (b : Bool)
  | null
deriving Repr, DecidableEq

/-- Modelled from the spec: a column codec — physical encoding type,
optional static range of the encoded values, the order/summation
preservation flags, and the decode/encode conversions between encoded and
logical values. -/
structure ColumnCodec where
  encoding_type : EncodingType
  encoding_range : Option (Int × Int)
  is_order_preserving : Bool
  is_summation_preserving : Bool
  decode : Val → Val
  encode : Val → Val

/-- Modelled from the spec: Rust `Type` (`engine/types.rs`) — a logical
`BasicType` plus an optional codec, a scalar flag and a mutability flag. -/
structure Typ where
  decoded : BasicType
  codec : Option ColumnCodec
  is_scalar : Bool
  is_borrowed : Bool

namespace Typ

/-- Modelled from the spec: `Type::new(decoded, codec)`. -/
def new (decoded : BasicType) (codec : Option ColumnCodec) : Typ :=
  { decoded := decoded, codec := codec, is_scalar := false, is_borrowed := false }

/-- Modelled from the spec: `Type::scalar(decoded)`. -/
def scalar (decoded : BasicType) : Typ :=
  { decoded := decoded, codec := none, is_scalar := true, is_borrowed := false }

/-- Modelled from the spec: `Type::bit_vec()`, the mutable boolean-vector
type produced by comparisons and boolean combinators. -/
def bit_vec : Typ := { new .boolean none with is_borrowed := true }

/-- Modelled from the spec: `mutable()` sets the mutability flag. -/
def mutable (t : Typ) : Typ := { t with is_borrowed := true }

/-- Modelled from the spec: `is_encoded()` — a codec is present. -/
def is_encoded (t : Typ) : Bool := t.codec.isSome

/-- Modelled from the spec: the natural encoding of a basic type, used when
no codec is present. -/
def basicEncoding : BasicType → EncodingType
  | .integer => .i64
  | .string => .str
  | .boolean => .bitVec
  | .null => .i64

/-- Modelled from the spec: `encoding_type()` — the physical encoding of
the current (possibly encoded) form. -/
def encoding_type (t : Typ) : EncodingType :=
  match t.codec with
  | some c => c.encoding_type
  | none => basicEncoding t.decoded

/-- Modelled from the spec: `decoded()` strips the codec and yields the
logical basic type's natural encoding. -/
def decode (t : Typ) : Typ := { t with codec := none }

/-- Modelled from the spec: `is_order_preserving()` — trivially true
without a codec, otherwise the codec's flag. -/
def is_order_preserving (t : Typ) : Bool :=
  match t.codec with
  | some c => c.is_order_preserving
  | none => true

/-- Modelled from the spec: `is_summation_preserving()` — trivially true
without a codec, otherwise the codec's flag. -/
def is_summation_preserving (t : Typ) : Bool :=
  match t.codec with
  | some c => c.is_summation_preserving
  | none => true

end Typ

/-- Modelled from the spec: `ColumnData` (`mem_store/column.rs`) exposes
`full_type()` and `to_codec()`; we keep the full type and derive the codec
from it (spec invariant: a `Type` with `codec = Some(c)` matches `c`). -/
structure ColumnData where
  full_type : Typ

/-- Modelled from the spec: `to_codec()` of a `ColumnData`. -/
def ColumnData.to_codec (d : ColumnData) : Option ColumnCodec := d.full_type.codec

/-- Modelled from the spec: a named column owning its `ColumnData`. -/
structure Column where
  data : ColumnData

/-- The `HashMap<&str, &Column>` of name→column bindings, modelled as a
lookup function. -/
def Columns := String → Option Column

/-! ## Expression AST (`syntax/expression.rs`) -/

/-- Modelled from the spec: the function tags of `Func` nodes used by the
plan compiler (`LT`, `Equals`, `And`, `Or`). -/
inductive FuncType where
  | lt
  | equals
  | and
  | or
deriving Repr, DecidableEq

/-- Modelled from the spec: the expression AST consumed by the plan
compiler: `ColName`, `Func(op, lhs, rhs)`, `Const`. -/
inductive Expr where
  | colName (name : String)
  | func (t : FuncType) (lhs rhs : Expr)
  | const (v : Val)
deriving Repr, DecidableEq

/-- `QueryError` from the repository root; only the error kind is
modelled, the formatted message of `bail!` is elided. -/
inductive QueryError where
  | notImplemented
  | typeError
deriving Repr, DecidableEq

/-- `BufferRef` (`engine/vector_op.rs`): an opaque handle wrapping the
index of one scratchpad buffer slot. -/
structure BufferRef where
  idx : Nat
deriving Repr, DecidableEq

/-! ## `QueryPlan` (`engine/query_plan.rs`) -/

/-- `QueryPlan`, the immutable plan tree of `query_plan.rs`.  Borrowed
`&ColumnCodec` / `&ColumnData` references become owned values. -/
inductive QueryPlan where
  | readColumn (codec : ColumnCodec)
  | decodeColumn (col : ColumnData)
  | readBuffer (buffer : BufferRef)
  | decodeWith (plan : QueryPlan) (codec : ColumnCodec)
  | typeConversion (plan : QueryPlan) (initial_type target_type : EncodingType)
  | encodeStrConstant (plan : QueryPlan) (codec : ColumnCodec)
  | encodeIntConstant (plan : QueryPlan) (codec : ColumnCodec)
  | bitPack (lhs rhs : QueryPlan) (shift_amount : Int)
  | bitUnpack (inner : QueryPlan) (shift width : Nat)
  | lessThanVS (left_type : EncodingType) (lhs rhs : QueryPlan)
  | equalsVS (left_type : EncodingType) (lhs rhs : QueryPlan)
  | and (lhs rhs : QueryPlan)
  | or (lhs rhs : QueryPlan)
  | sortIndices (plan : QueryPlan) (descending : Bool)
  | encodedGroupByPlaceholder
  | constant (v : Val)

/-- `QueryPlan::encoding_range`: only a `ReadColumn` leaf exposes its
codec's static range. -/
def QueryPlan.encoding_range : QueryPlan → Option (Int × Int)
  | .readColumn codec => codec.encoding_range
  | _ => none

/-! ## 64-bit integer arithmetic helpers -/

/-- Interpret an integer as a two's-complement `i64` (wrap modulo `2 ^ 64`
into `[-2 ^ 63, 2 ^ 63)`). -/
def wrap64 (n : Int) : Int := (n + 2 ^ 63) % 2 ^ 64 - 2 ^ 63

/-- Rust `i64` shift-left `a << sh` for `0 ≤ sh < 64`: bits shifted out are
discarded (the value wraps); no overflow check. -/
def i64Shl (a : Int) (sh : Nat) : Int := wrap64 (a * 2 ^ sh)

/-- The exact bit width `⌊log2 max⌋ + 1`.  The source computes the width
as `(max as f64).log2().floor() as i64 + 1`; because `f64::log2` rounds
its output, the source's value can be one larger than this exact value
for maxima just below a power of two (e.g. `max = 2 ^ 49 - 1` gives 50
rather than 49 on typical libms), and the precise result depends on the
platform's `log2`.  The grouping-key definitions below therefore take the
width function as an explicit parameter `bitsOf`; `bitsFor` is the exact
instance, used to build concrete witnesses.  Every faithful `log2` yields
a width that is positive and satisfies `max < 2 ^ width` for `max ≥ 1`
(it never rounds below the exact floor, since powers of two are exactly
representable), which are the only properties the theorems assume. -/
def bitsFor (max : Int) : Int := (Nat.log2 max.toNat : Int) + 1

/-! ## Executor model (`engine/query_plan.rs`, operators from
`engine/vector_op.rs`) -/

/-- Modelled from the spec: the active row-selection mode.  The bitmap /
index-list payloads (`Rc` handles in Rust) are abstracted to opaque
identifiers, since only the three-way dispatch matters to lowering. -/
inductive Filter where
  | none
  | bitVec (filter : Nat)
  | indices (filter : Nat)
deriving Repr, DecidableEq

/-- `Aggregator` from `engine/aggregator.rs`: the closed set `(Count, Sum)`. -/
inductive Aggregator where
  | count
  | sum
deriving Repr, DecidableEq

/-- Modelled from the spec: descriptors of the physical vector operators
(`engine/vector_op.rs` is not in the snapshot).  Each constructor records
the operator's inputs, its output buffer(s) and its static parameters,
exactly as built at the corresponding `prepare` site. -/
inductive VecOp where
  | getDecode (col : ColumnData) (output : BufferRef)
  | filterDecode (col : ColumnData) (filter : Nat) (output : BufferRef)
  | indexDecode (col : ColumnData) (filter : Nat) (output : BufferRef)
  | getEncoded (codec : ColumnCodec) (output : BufferRef)
  | filterEncoded (codec : ColumnCodec) (filter : Nat) (output : BufferRef)
  | indexEncoded (codec : ColumnCodec) (filter : Nat) (output : BufferRef)
  | constant (v : Val) (output : BufferRef)
  | decodeWith (input output : BufferRef) (codec : ColumnCodec)
  | typeConversion (input output : BufferRef) (initial_type target_type : EncodingType)
  | encodeStrConstant (input output : BufferRef) (codec : ColumnCodec)
  | encodeIntConstant (input output : BufferRef) (codec : ColumnCodec)
  | bitShiftLeftAdd (lhs rhs output : BufferRef) (shift_amount : Int)
  | bitUnpack (input output : BufferRef) (shift width : Nat)
  | lessThanVS (left_type : EncodingType) (lhs rhs output : BufferRef)
  | equalsVS (left_type : EncodingType) (lhs rhs output : BufferRef)
  | booleanOr (lhs rhs : BufferRef)
  | booleanAnd (lhs rhs : BufferRef)
  | sortIndices (input output : BufferRef) (descending : Bool)
  | count (grouping_key output : BufferRef) (grouping_type : EncodingType)
      (max_index : Nat) (dense_grouping : Bool)
  | summation (input grouping_key output : BufferRef)
      (input_type grouping_type : EncodingType) (max_index : Nat) (dense_grouping : Bool)

/-- `ExecutorStage`: an ordered operator list sharing one active filter and
one optional resolved group-key buffer. -/
structure ExecutorStage where
  ops : List VecOp
  encoded_group_by : Option BufferRef
  filter : Filter

/-- `ExecutorStage::default()`. -/
def ExecutorStage.default : ExecutorStage :=
  { ops := [], encoded_group_by := none, filter := .none }

/-- `QueryExecutor`.  The Rust field `stages : Vec<ExecutorStage>` always
holds at least one stage (`Default` creates one, and only `new_stage` ever
changes the list, by appending), so we represent it as the earlier stages
plus the current (last) one; `stages = prev_stages ++ [current]`.  All the
`last()/last_mut()` accessors of the Rust code act on `current`. -/
structure QueryExecutor where
  prev_stages : List ExecutorStage
  current : ExecutorStage
  count : Nat

namespace QueryExecutor

/-- `QueryExecutor::default()`: one empty stage, zero buffers. -/
def default : QueryExecutor :=
  { prev_stages := [], current := .default, count := 0 }

/-- `QueryExecutor::new_stage`. -/
def new_stage (ex : QueryExecutor) : QueryExecutor :=
  { ex with prev_stages := ex.prev_stages ++ [ex.current], current := .default }

/-- `QueryExecutor::new_buffer`: `count += 1; BufferRef(count - 1)` — hands
out the next index and bumps the allocation counter. -/
def new_buffer (ex : QueryExecutor) : BufferRef × QueryExecutor :=
  (⟨ex.count⟩, { ex with count := ex.count + 1 })

/-- `QueryExecutor::last_buffer`: `BufferRef(count - 1)`. -/
def last_buffer (ex : QueryExecutor) : BufferRef := ⟨ex.count - 1⟩

/-- `QueryExecutor::push`: append an operator to the current stage. -/
def push (ex : QueryExecutor) (op : VecOp) : QueryExecutor :=
  { ex with current := { ex.current with ops := ex.current.ops ++ [op] } }

/-- `QueryExecutor::set_encoded_group_by`. -/
def set_encoded_group_by (ex : QueryExecutor) (gb : BufferRef) : QueryExecutor :=
  { ex with current := { ex.current with encoded_group_by := some gb } }

/-- `QueryExecutor::encoded_group_by` (reads the current stage). -/
def encoded_group_by (ex : QueryExecutor) : Option BufferRef :=
  ex.current.encoded_group_by

/-- `QueryExecutor::filter` (reads the current stage). -/
def filter (ex : QueryExecutor) : Filter := ex.current.filter

/-- `QueryExecutor::set_filter`. -/
def set_filter (ex : QueryExecutor) (f : Filter) : QueryExecutor :=
  { ex with current := { ex.current with filter := f } }

end QueryExecutor

/-- The scratchpad of one execution; only its slot count is relevant here
(operator execution writes values into slots but never resizes it). -/
structure Scratchpad where
  size : Nat
deriving Repr, DecidableEq

/-- `Scratchpad::new(count)`: allocate `count` buffer slots. -/
def Scratchpad.new (count : Nat) : Scratchpad := { size := count }

/-- `QueryExecutor::run`: allocates `Scratchpad::new(self.count)` and runs
every stage against it.  Modelled from the spec: each operator writes its
designated buffers inside the scratchpad; execution never changes the slot
count, so the returned scratchpad is the allocated one. -/
def QueryExecutor.run (ex : QueryExecutor) : Scratchpad := Scratchpad.new ex.count

/-! ## Plan lowering: `prepare` -/

/-- The common tail of every operator-building arm of `prepare`: allocate
the operator's output buffer with `new_buffer`, build the operator with
it, `push` it, and return `last_buffer()` (which at that point is exactly
the buffer just allocated). -/
def emit (result : QueryExecutor) (op : BufferRef → VecOp) :
    BufferRef × QueryExecutor :=
  let (buf, result') := result.new_buffer
  let result' := result'.push (op buf)
  (result'.last_buffer, result')

/-- `prepare` from `query_plan.rs`: recursively lower a plan into operators
appended to the executor, returning the handle holding the plan's result.
Children are lowered first (depth first, left to right), then the node's
own operator is `emit`ted.  `EncodedGroupByPlaceholder` resolves to the
current stage's registered group-key buffer; the Rust `unwrap()` when none
is registered (a panic) is modelled as `Option.none`.  `And`/`Or` push an
operator over their operands' buffers and return the left operand's
buffer, allocating nothing. -/
def prepare : QueryPlan → QueryExecutor → Option (BufferRef × QueryExecutor)
  | .decodeColumn col, result =>
      some (emit result (fun buf =>
        match result.filter with
        | .none => .getDecode col buf
        | .bitVec filter => .filterDecode col filter buf
        | .indices filter => .indexDecode col filter buf))
  | .readColumn codec, result =>
      some (emit result (fun buf =>
        match result.filter with
        | .none => .getEncoded codec buf
        | .bitVec filter => .filterEncoded codec filter buf
        | .indices filter => .indexEncoded codec filter buf))
  | .constant c, result => some (emit result (fun buf => .constant c buf))
  | .decodeWith plan codec, result => do
      let (input, result') ← prepare plan result
      some (emit result' (fun buf => .decodeWith input buf codec))
  | .typeConversion plan initial_type target_type, result => do
      let (input, result') ← prepare plan result
      some (emit result' (fun buf =>
        .typeConversion input buf initial_type target_type))
  | .encodeStrConstant plan codec, result => do
      let (input, result') ← prepare plan result
      some (emit result' (fun buf => .encodeStrConstant input buf codec))
  | .encodeIntConstant plan codec, result => do
      let (input, result') ← prepare plan result
      some (emit result' (fun buf => .encodeIntConstant input buf codec))
  | .bitPack lhs rhs shift_amount, result => do
      let (l, result') ← prepare lhs result
      let (r, result') ← prepare rhs result'
      some (emit result' (fun buf => .bitShiftLeftAdd l r buf shift_amount))
  | .bitUnpack inner shift width, result => do
      let (input, result') ← prepare inner result
      some (emit result' (fun buf => .bitUnpack input buf shift width))
  | .lessThanVS left_type lhs rhs, result => do
      let (l, result') ← prepare lhs result
      let (r, result') ← prepare rhs result'
      some (emit result' (fun buf => .lessThanVS left_type l r buf))
  | .equalsVS left_type lhs rhs, result => do
      let (l, result') ← prepare lhs result
      let (r, result') ← prepare rhs result'
      some (emit result' (fun buf => .equalsVS left_type l r buf))
  | .or lhs rhs, result => do
      let (inplace, result') ← prepare lhs result
      let (r, result') ← prepare rhs result'
      let result' := result'.push (.booleanOr inplace r)
      some (inplace, result')
  | .and lhs rhs, result => do
      let (inplace, result') ← prepare lhs result
      let (r, result') ← prepare rhs result'
      let result' := result'.push (.booleanAnd inplace r)
      some (inplace, result')
  | .encodedGroupByPlaceholder, result => do
      let gb ← result.encoded_group_by
      some (gb, result)
  | .sortIndices plan descending, result => do
      let (input, result') ← prepare plan result
      some (emit result' (fun buf => .sortIndices input buf descending))
  | .readBuffer buffer, result => some (buffer, result)

lemma emit_fst (result : QueryExecutor) (op : BufferRef → VecOp) :
    (emit result op).1 = ⟨result.count⟩ := rfl

lemma emit_count (result : QueryExecutor) (op : BufferRef → VecOp) :
    (emit result op).2.count = result.count + 1 := rfl

lemma emit_ops (result : QueryExecutor) (op : BufferRef → VecOp) :
    (emit result op).2.current.ops =
      result.current.ops ++ [op ⟨result.count⟩] := rfl

lemma emit_group_by (result : QueryExecutor) (op : BufferRef → VecOp) :
    (emit result op).2.current.encoded_group_by =
      result.current.encoded_group_by := rfl

lemma push_count (ex : QueryExecutor) (op : VecOp) :
    (ex.push op).count = ex.count := rfl

lemma push_group_by (ex : QueryExecutor) (op : VecOp) :
    (ex.push op).current.encoded_group_by = ex.current.encoded_group_by := rfl

/-- `prepare_aggregation` from `query_plan.rs`.  The output buffer is
allocated first; for `Sum` over a non-summation-preserving type the value
plan is re-wrapped in `DecodeWith` through the type's codec (the Rust
`codec.unwrap()` on an impossible codec-free non-preserving type is
modelled as `Option.none`). -/
def prepare_aggregation (plan : QueryPlan) (plan_type : Typ)
    (grouping_key : BufferRef) (grouping_type : EncodingType) (max_index : Nat)
    (aggregator : Aggregator) (result : QueryExecutor) :
    Option (BufferRef × QueryExecutor) :=
  let (output_location, result) := result.new_buffer
  match aggregator with
  | .count =>
      let result := result.push
        (.count grouping_key output_location grouping_type max_index false)
      some (output_location, result)
  | .sum => do
      let (plan, plan_type) ←
        if plan_type.is_summation_preserving then some (plan, plan_type)
        else do
          let codec ← plan_type.codec
          some (QueryPlan.decodeWith plan codec, plan_type.decode)
      let (input, result) ← prepare plan result
      let result := result.push
        (.summation input grouping_key output_location
          plan_type.encoding_type grouping_type max_index false)
      some (output_location, result)


/-! ## Plan compilation: `create_query_plan` and `compile_grouping_key` -/

/-- Modelled from the spec: `RawVal::get_type()`, the logical type tag of a
literal value. -/
def Val.get_type : Val → BasicType
  | .int _ => .integer
  | .str _ => .string
  | .boolean _ => .boolean
  | .null => .null

/-- `QueryPlan::create_query_plan` from `query_plan.rs`.  The Rust
`if type_lhs.is_encoded() ( ... type_lhs.codec.unwrap() ... )` is written
as a match on `type_lhs.codec` (`is_encoded()` is exactly
`codec.is_some()`, so the two are equivalent and the `unwrap` cannot
panic). -/
def create_query_plan (expr : Expr) (columns : Columns) :
    Except QueryError (QueryPlan × Typ) :=
  match expr with
  | .colName name =>
      match columns name with
      | some c =>
          let t := c.data.full_type
          match c.data.to_codec with
          | none => .ok (.decodeColumn c.data, t.decode)
          | some codec => .ok (.readColumn codec, t)
      | none => .error .notImplemented
  | .func .lt lhs rhs => do
      let (plan_lhs, type_lhs) ← create_query_plan lhs columns
      let (plan_rhs, type_rhs) ← create_query_plan rhs columns
      match type_lhs.decoded, type_rhs.decoded with
      | .integer, .integer =>
          if type_rhs.is_scalar then
            let plan := match type_lhs.codec with
              | some codec =>
                  QueryPlan.lessThanVS type_lhs.encoding_type plan_lhs
                    (.encodeIntConstant plan_rhs codec)
              | none => QueryPlan.lessThanVS type_lhs.encoding_type plan_lhs plan_rhs
            .ok (plan, (Typ.new .boolean none).mutable)
          else .error .notImplemented
      | _, _ => .error .typeError
  | .func .equals lhs rhs => do
      let (plan_lhs, type_lhs) ← create_query_plan lhs columns
      let (plan_rhs, type_rhs) ← create_query_plan rhs columns
      match type_lhs.decoded, type_rhs.decoded with
      | .string, .string =>
          if type_rhs.is_scalar then
            let plan := match type_lhs.codec with
              | some codec =>
                  QueryPlan.equalsVS type_lhs.encoding_type plan_lhs
                    (.encodeStrConstant plan_rhs codec)
              | none => QueryPlan.equalsVS type_lhs.encoding_type plan_lhs plan_rhs
            .ok (plan, (Typ.new .boolean none).mutable)
          else .error .notImplemented
      | .integer, .integer =>
          if type_rhs.is_scalar then
            let plan := match type_lhs.codec with
              | some codec =>
                  QueryPlan.equalsVS type_lhs.encoding_type plan_lhs
                    (.encodeIntConstant plan_rhs codec)
              | none => QueryPlan.equalsVS type_lhs.encoding_type plan_lhs plan_rhs
            .ok (plan, (Typ.new .boolean none).mutable)
          else .error .notImplemented
      | _, _ => .error .typeError
  | .func .or lhs rhs => do
      let (plan_lhs, type_lhs) ← create_query_plan lhs columns
      let (plan_rhs, type_rhs) ← create_query_plan rhs columns
      if type_lhs.decoded ≠ .boolean ∨ type_rhs.decoded ≠ .boolean then
        .error .typeError
      else
        .ok (.or plan_lhs plan_rhs, Typ.bit_vec)
  | .func .and lhs rhs => do
      let (plan_lhs, type_lhs) ← create_query_plan lhs columns
      let (plan_rhs, type_rhs) ← create_query_plan rhs columns
      if type_lhs.decoded ≠ .boolean ∨ type_rhs.decoded ≠ .boolean then
        .error .typeError
      else
        .ok (.and plan_lhs plan_rhs, Typ.bit_vec)
  | .const v => .ok (.constant v, Typ.scalar v.get_type)

/-- The loop body of the two-column case of `compile_grouping_key`,
iterating over the expressions in reverse order.  The state threads
`total_width`, `largest_key`, the optional packed `plan` and the
accumulated `decode_plans`; the Rust `plan = None; break` (for a negative
minimum or a statically unknown range) is modelled by returning the state
with `plan = none` without visiting the remaining expressions.  The width
expression `(max as f64).log2().floor() as i64 + 1` is abstracted as the
parameter `bitsOf`, because its exact value depends on the platform's
floating-point `log2`. -/
def groupLoop (bitsOf : Int → Int) (columns : Columns) :
    List Expr → Int → Int → Option QueryPlan → List QueryPlan →
    Except QueryError (Int × Int × Option QueryPlan × List QueryPlan)
  | [], total_width, largest_key, plan, decode_plans =>
      .ok (total_width, largest_key, plan, decode_plans)
  | expr :: rest, total_width, largest_key, plan, decode_plans => do
      let (query_plan, plan_type) ← create_query_plan expr columns
      match query_plan.encoding_range with
      | some (min, max) =>
          if min < 0 then
            .ok (total_width, largest_key, none, decode_plans)
          else
            let query_plan :=
              QueryPlan.typeConversion query_plan plan_type.encoding_type .i64
            let bits := bitsOf max
            let plan :=
              if total_width == 0 then some query_plan
              else plan.map (fun p => QueryPlan.bitPack p query_plan total_width)
            let decode_plan :=
              QueryPlan.typeConversion
                (.bitUnpack .encodedGroupByPlaceholder total_width.toNat bits.toNat)
                .i64 plan_type.encoding_type
            let decode_plan :=
              match plan_type.codec with
              | some codec => QueryPlan.decodeWith decode_plan codec
              | none => decode_plan
            groupLoop bitsOf columns rest (total_width + bits)
              (wrap64 (largest_key + i64Shl max total_width.toNat))
              plan (decode_plans ++ [decode_plan])
      | none => .ok (total_width, largest_key, none, decode_plans)

/-- `QueryPlan::compile_grouping_key` from `query_plan.rs`.  One column:
pass the compiled plan through, with maximum cardinality from its static
range if known, else `1i64 << 63` (which wraps to `i64::MIN`); the single
decode plan decodes the group-key placeholder through the codec if there
is one.  Two columns: run the packing loop over the reversed expression
list, then demand a packed plan of total width at most 64 bits and return
the unpack plans reversed back into original column order.  Any other
column count is `NotImplemented`.  `bitsOf` abstracts the floating-point
width computation, as in `groupLoop`. -/
def compile_grouping_key (bitsOf : Int → Int) (exprs : List Expr)
    (columns : Columns) :
    Except QueryError (QueryPlan × Typ × Int × List QueryPlan) :=
  match exprs with
  | [expr] =>
      (create_query_plan expr columns).map (fun (gk_plan, gk_type) =>
        let max_cardinality : Int :=
          match gk_plan.encoding_range with
          | some i => i.2
          | none => i64Shl 1 63
        let decoded_group_by :=
          match gk_type.codec with
          | some codec => QueryPlan.decodeWith .encodedGroupByPlaceholder codec
          | none => QueryPlan.encodedGroupByPlaceholder
        (gk_plan, gk_type, max_cardinality, [decoded_group_by]))
  | [e1, e2] => do
      let (total_width, largest_key, plan, decode_plans) ←
        groupLoop bitsOf columns [e2, e1] 0 0 none []
      match plan with
      | some plan =>
          if total_width ≤ 64 then
            .ok (plan, Typ.new .integer none, largest_key, decode_plans.reverse)
          else .error .notImplemented
      | none => .error .notImplemented
  | _ => .error .notImplemented

/-! ## Scalar evaluation of plans -/

/-- The environment a plan is evaluated in: the encoded value read from an
encoded column, the decoded value read from an unencoded column, and the
value bound to the group-by placeholder. -/
structure EvalEnv where
  readCol : ColumnCodec → Val
  readData : ColumnData → Val
  groupBy : Val

/-- Modelled from the spec: the per-value semantics of the vector
operators each plan node lowers to (`engine/vector_op.rs` is not in the
snapshot).  Type conversion between integer encodings preserves the value;
`BitPack` is `lhs + (rhs << shift)` on `i64` (bits shifted out wrap, a
shift amount outside `[0, 64)` would panic and yields `none`); `BitUnpack`
is `(x >> shift) & ((1 << width) - 1)` on `i64`, i.e. an arithmetic right
shift (`Int.ediv` by `2 ^ shift`) followed by masking (`Int.emod` by
`2 ^ width`); decode and encode apply the codec's conversions; comparisons
and boolean combinators work on matching value kinds.  `ReadBuffer` and
`SortIndices` have no scalar meaning and evaluate to `none`. -/
def evalPlan : QueryPlan → EvalEnv → Option Val
  | .readColumn codec, env => some (env.readCol codec)
  | .decodeColumn col, env => some (env.readData col)
  | .readBuffer _, _ => none
  | .decodeWith plan codec, env => (evalPlan plan env).map codec.decode
  | .typeConversion plan _ _, env => do
      match ← evalPlan plan env with
      | .int i => some (.int i)
      | _ => none
  | .encodeStrConstant plan codec, env => (evalPlan plan env).map codec.encode
  | .encodeIntConstant plan codec, env => (evalPlan plan env).map codec.encode
  | .bitPack lhs rhs shift_amount, env => do
      match ← evalPlan lhs env, ← evalPlan rhs env with
      | .int a, .int b =>
          if 0 ≤ shift_amount ∧ shift_amount < 64 then
            some (.int (wrap64 (a + i64Shl b shift_amount.toNat)))
          else none
      | _, _ => none
  | .bitUnpack plan shift width, env => do
      match ← evalPlan plan env with
      | .int a => some (.int ((a / 2 ^ shift) % 2 ^ width))
      | _ => none
  | .lessThanVS _ lhs rhs, env => do
      match ← evalPlan lhs env, ← evalPlan rhs env with
      | .int a, .int b => some (.boolean (a < b))
      | _, _ => none
  | .equalsVS _ lhs rhs, env => do
      match ← evalPlan lhs env, ← evalPlan rhs env with
      | .int a, .int b => some (.boolean (a == b))
      | .str a, .str b => some (.boolean (a == b))
      | _, _ => none
  | .and lhs rhs, env => do
      match ← evalPlan lhs env, ← evalPlan rhs env with
      | .boolean a, .boolean b => some (.boolean (a && b))
      | _, _ => none
  | .or lhs rhs, env => do
      match ← evalPlan lhs env, ← evalPlan rhs env with
      | .boolean a, .boolean b => some (.boolean (a || b))
      | _, _ => none
  | .sortIndices _ _, _ => none
  | .encodedGroupByPlaceholder, env => some env.groupBy
  | .constant v, _ => some v


/-! ## Lemmas about the byte-packed layout -/

/-- The byte layout produced by a sequence of `push` calls: each value's
bytes followed by its zero terminator. -/
def packedBytes (ss : List (List Nat)) : List Nat :=
  (ss.map (fun s => s ++ [0])).flatten

lemma packedBytes_cons (s : List Nat) (ss : List (List Nat)) :
    packedBytes (s :: ss) = (s ++ [0]) ++ packedBytes ss := rfl

lemma foldl_push_data (pushes : List (List Nat)) :
    ∀ sp : StringPacker,
      (pushes.foldl StringPacker.push sp).data = sp.data ++ packedBytes pushes := by
  induction pushes with
  | nil => intro sp; simp [packedBytes]
  | cons s rest ih =>
      intro sp
      simp [List.foldl_cons, ih, StringPacker.push, packedBytes_cons,
        List.append_assoc]

lemma from_strings_data (strings : List (Option (List Nat))) :
    (StringPacker.from_strings strings).data =
      packedBytes (strings.map (fun s => s.getD [])) := by
  unfold StringPacker.from_strings
  rw [← List.foldl_map (fun s : Option (List Nat) => s.getD []) StringPacker.push]
  rw [foldl_push_data]
  rfl

lemma zero_mem_drop_packedBytes :
    ∀ (ss : List (List Nat)) (c : Nat),
      c < (packedBytes ss).length → 0 ∈ (packedBytes ss).drop c := by
  intro ss
  induction ss with
  | nil => intro c h; simp [packedBytes] at h
  | cons s rest ih =>
      intro c h
      rw [packedBytes_cons, List.drop_append_eq_append_drop]
      by_cases hc : c ≤ s.length
      · apply List.mem_append_left
        rw [List.drop_append_eq_append_drop, Nat.sub_eq_zero_of_le hc]
        simp
      · apply List.mem_append_right
        apply ih
        rw [packedBytes_cons] at h
        simp only [List.length_append, List.length_cons, List.length_nil] at h ⊢
        omega

lemma next_of_ge {it : StringPackerIterator} (h : it.data.length ≤ it.curr_index) :
    it.next = .ok none := by
  unfold StringPackerIterator.next
  rw [if_pos]
  exact h

lemma next_of_zero_mem {it : StringPackerIterator}
    (hc : it.curr_index < it.data.length)
    (hz : 0 ∈ it.data.drop it.curr_index) :
    ∃ s it', it.next = .ok (some (s, it')) := by
  unfold StringPackerIterator.next
  rw [if_neg (by omega)]
  obtain ⟨r, hr⟩ :
      ∃ r, (it.data.drop it.curr_index).findIdx? (fun x => x = 0) = some r := by
    cases hfi : (it.data.drop it.curr_index).findIdx? (fun x => x = 0) with
    | some r => exact ⟨r, rfl⟩
    | none =>
        rw [List.findIdx?_eq_none_iff] at hfi
        have := hfi 0 hz
        simp at this
  rw [hr]
  exact ⟨_, _, rfl⟩

/-- C10: a `StringPacker` data buffer built exclusively through `push`
lays out each value's bytes followed by a zero terminator, and so
`StringPackerIterator::next` is safe at every cursor position: at or past
the end it returns `None`, and otherwise its forward terminator scan finds
a zero byte before running past the end of the buffer (it yields a value
instead of indexing out of bounds). -/
theorem push_built_next_never_out_of_bounds (pushes : List (List Nat)) (c : Nat) :
    (pushes.foldl StringPacker.push StringPacker.new).data = packedBytes pushes ∧
    ((packedBytes pushes).length ≤ c →
      StringPackerIterator.next ⟨packedBytes pushes, c⟩ = .ok none) ∧
    (c < (packedBytes pushes).length →
      ∃ s it', StringPackerIterator.next ⟨packedBytes pushes, c⟩ = .ok (some (s, it'))) := by
  refine ⟨?_, fun h => next_of_ge h, ?_⟩
  · rw [foldl_push_data]; rfl
  · intro hc
    exact next_of_zero_mem hc (zero_mem_drop_packedBytes pushes c hc)

/-- Witness for the push-safety theorem at a concrete buffer and cursor. -/
theorem push_built_next_never_out_of_bounds_witness :
    ∃ s it', StringPackerIterator.next
      ⟨packedBytes [[1, 2], [3]], 0⟩ = .ok (some (s, it')) :=
  (push_built_next_never_out_of_bounds [[1, 2], [3]] 0).2.2 (by decide)


/-! ## Round trip of byte-packed strings -/

lemma collect_of_next_none {it : StringPackerIterator} (h : it.next = .ok none) :
    it.collect = .ok [] := by
  rw [StringPackerIterator.collect]
  split
  · next heq => rw [h] at heq; cases heq
  · rfl
  · next s it' heq => rw [h] at heq; cases heq

lemma collect_of_next_yield {it it' : StringPackerIterator} {s : List Nat}
    (h : it.next = .ok (some (s, it'))) :
    it.collect = (it'.collect).map (s :: ·) := by
  rw [StringPackerIterator.collect]
  split
  · next heq => rw [h] at heq; cases heq
  · next heq => rw [h] at heq; cases heq
  · next s₂ it₂ heq =>
      rw [h] at heq
      cases heq
      rfl

lemma collect_packedBytes :
    ∀ (ss : List (List Nat)), (∀ s ∈ ss, 0 ∉ s) →
    ∀ (pre : List Nat),
      StringPackerIterator.collect ⟨pre ++ packedBytes ss, pre.length⟩ = .ok ss := by
  intro ss
  induction ss with
  | nil =>
      intro _ pre
      apply collect_of_next_none
      apply next_of_ge
      simp [packedBytes]
  | cons s rest ih =>
      intro hz pre
      have hnext : StringPackerIterator.next ⟨pre ++ packedBytes (s :: rest), pre.length⟩ =
          .ok (some (s,
            ⟨pre ++ packedBytes (s :: rest), pre.length + s.length + 1⟩)) := by
        unfold StringPackerIterator.next
        rw [if_neg (by simp [packedBytes_cons])]
        have hdrop : (pre ++ packedBytes (s :: rest)).drop pre.length =
            packedBytes (s :: rest) := List.drop_left pre _
        rw [hdrop, packedBytes_cons]
        have hfind : ((s ++ [0]) ++ packedBytes rest).findIdx? (fun x => x = 0) =
            some s.length := by
          rw [List.findIdx?_append, List.findIdx?_append]
          have hs : s.findIdx? (fun x => x = 0) = none := by
            rw [List.findIdx?_eq_none_iff]
            intro x hx
            simp only [decide_eq_false_iff_not]
            intro h0
            exact hz s (by simp) (h0 ▸ hx)
          rw [hs]
          simp
        rw [hfind]
        have htake : ((s ++ [0]) ++ packedBytes rest).take s.length = s := by
          rw [List.append_assoc]
          exact List.take_left' rfl
        simp [htake]
      rw [collect_of_next_yield hnext]
      have hre : (⟨pre ++ packedBytes (s :: rest), pre.length + s.length + 1⟩ :
          StringPackerIterator) =
          ⟨(pre ++ (s ++ [0])) ++ packedBytes rest, (pre ++ (s ++ [0])).length⟩ := by
        rw [packedBytes_cons]
        simp [List.append_assoc, Nat.add_assoc]
      rw [hre, ih (fun t ht => hz t (by simp [ht])) (pre ++ (s ++ [0]))]
      rfl

/-- C2: packing a sequence of non-null strings, none containing a zero
byte, via `from_strings` and then iterating yields back exactly the
original sequence in insertion order; the fresh iterator starts at offset
0 (and `collect` is a pure function of the iterator, so iteration is
restartable with the same result). -/
theorem from_strings_iter_roundtrip (ss : List (List Nat))
    (h : ∀ s ∈ ss, 0 ∉ s) :
    (StringPacker.from_strings (ss.map some)).iter.collect = .ok ss ∧
    (StringPacker.from_strings (ss.map some)).iter.curr_index = 0 := by
  refine ⟨?_, rfl⟩
  have hd : (StringPacker.from_strings (ss.map some)).data = packedBytes ss := by
    rw [from_strings_data, List.map_map]
    simp [Function.comp_def]
  show StringPackerIterator.collect
    ⟨(StringPacker.from_strings (ss.map some)).data, 0⟩ = .ok ss
  rw [hd]
  have := collect_packedBytes ss h []
  simpa using this

/-- Witness for the round-trip theorem at a concrete string sequence. -/
theorem from_strings_iter_roundtrip_witness :
    (StringPacker.from_strings ([[104, 105], [], [33]].map some)).iter.collect =
      .ok [[104, 105], [], [33]] :=
  (from_strings_iter_roundtrip [[104, 105], [], [33]] (by decide)).1

/-- C3 (failing input): with two equal values the distinct-value count is
1, far below the 10,000 ceiling, so the spec requires a dictionary-encoded
column; `build_string_column` instead hits its `panic!("TODO")` arm — the
dictionary path is unimplemented even though `DictEncodedStrings::from_strings`
exists directly below it. -/
theorem build_string_column_small_cardinality_panics :
    build_string_column [some [97], some [97]]
      (uniqueValuesOf [some [97], some [97]]) = .error "TODO" := by
  rfl


/-! ## Type rejection of comparisons (C5) -/

lemma ok_bind {ε α β : Type} (a : α) (f : α → Except ε β) :
    ((Except.ok a : Except ε α) >>= f) = f a := rfl

lemma error_bind {ε α β : Type} (e : ε) (f : α → Except ε β) :
    ((Except.error e : Except ε α) >>= f) = Except.error e := rfl

/-- The comparison signatures the spec allows, stated from the claim's
words: `(Integer, Integer)` for `<`; `(Integer, Integer)` or
`(String, String)` for `=`. -/
def allowedComparison : FuncType → BasicType → BasicType → Bool
  | .lt, .integer, .integer => true
  | .equals, .integer, .integer => true
  | .equals, .string, .string => true
  | _, _, _ => false

/-- C5: for a comparison (`<` or `=`) whose two compiled operands' decoded
logical types do not match an allowed combination, `create_query_plan`
returns `TypeError` — no plan (and in particular no partial plan) is
produced. -/
theorem comparison_type_mismatch_yields_type_error
    (op : FuncType) (lhs rhs : Expr) (columns : Columns)
    (plan_lhs : QueryPlan) (type_lhs : Typ) (plan_rhs : QueryPlan) (type_rhs : Typ)
    (hop : op = .lt ∨ op = .equals)
    (hl : create_query_plan lhs columns = .ok (plan_lhs, type_lhs))
    (hr : create_query_plan rhs columns = .ok (plan_rhs, type_rhs))
    (hsig : allowedComparison op type_lhs.decoded type_rhs.decoded = false) :
    create_query_plan (.func op lhs rhs) columns = .error .typeError := by
  rcases hop with rfl | rfl <;>
  · simp only [create_query_plan, hl, hr, ok_bind]
    cases h1 : type_lhs.decoded <;> cases h2 : type_rhs.decoded <;>
      simp_all [allowedComparison]

/-- Concrete single-column tables used to instantiate the compiler
theorems: an unencoded integer column `x` and an unencoded string
column `s`. -/
def intColumnNoCodec : Column := ⟨⟨Typ.new .integer none⟩⟩

def strColumnNoCodec : Column := ⟨⟨Typ.new .string none⟩⟩

def twoPlainColumns : Columns := fun name =>
  if name = "x" then some intColumnNoCodec
  else if name = "s" then some strColumnNoCodec
  else none

/-- Witness: compiling `x < "abc"` over an integer column `x` yields a
`TypeError`. -/
theorem comparison_type_mismatch_yields_type_error_witness :
    create_query_plan (.func .lt (.colName "x") (.const (.str "abc")))
      twoPlainColumns = .error .typeError :=
  comparison_type_mismatch_yields_type_error .lt (.colName "x")
    (.const (.str "abc")) twoPlainColumns
    (.decodeColumn intColumnNoCodec.data) intColumnNoCodec.data.full_type.decode
    (.constant (.str "abc")) (Typ.scalar .string)
    (Or.inl rfl) rfl rfl rfl


/-! ## Single-column grouping-key maximum cardinality (C6) -/

/-- C6 (counterexample): for an unencoded integer column (statically
unknown encoding range), the single-column `compile_grouping_key` returns
maximum cardinality `1i64 << 63`, which as a 64-bit signed value is
`-2 ^ 63` (`i64::MIN`) — not the positive value `2 ^ 63` the claim
states. -/
theorem single_column_unknown_range_max_is_negative :
    (match compile_grouping_key bitsFor [.colName "x"] twoPlainColumns with
      | .ok (_, _, m, _) => m
      | .error _ => 0) = -(2 ^ 63) ∧ ((-(2 ^ 63) : Int) ≠ 2 ^ 63) := by
  constructor
  · rfl
  · decide

/-- C6 (amended): for a single grouping column, the returned maximum
cardinality is `1i64 << 63` — the wrapped, negative value `-2 ^ 63`, not
the positive `2 ^ 63` — when the plan's encoding range is statically
unknown, and the range's upper bound when it is known. -/
theorem single_column_max_cardinality
    (bitsOf : Int → Int)
    (expr : Expr) (columns : Columns) (gk_plan : QueryPlan) (gk_type : Typ)
    (hc : create_query_plan expr columns = .ok (gk_plan, gk_type)) :
    (i64Shl 1 63 = -(2 ^ 63)) ∧
    (gk_plan.encoding_range = none →
      compile_grouping_key bitsOf [expr] columns =
        .ok (gk_plan, gk_type, i64Shl 1 63,
          [match gk_type.codec with
           | some codec => QueryPlan.decodeWith .encodedGroupByPlaceholder codec
           | none => QueryPlan.encodedGroupByPlaceholder])) ∧
    (∀ mn mx, gk_plan.encoding_range = some (mn, mx) →
      compile_grouping_key bitsOf [expr] columns =
        .ok (gk_plan, gk_type, mx,
          [match gk_type.codec with
           | some codec => QueryPlan.decodeWith .encodedGroupByPlaceholder codec
           | none => QueryPlan.encodedGroupByPlaceholder])) := by
  refine ⟨by decide, ?_, ?_⟩
  · intro hr
    simp only [compile_grouping_key, hc, Except.map, hr]
  · intro mn mx hr
    simp only [compile_grouping_key, hc, Except.map, hr]

/-- Witness for the amended single-column maximum-cardinality theorem. -/
theorem single_column_max_cardinality_witness :
    compile_grouping_key bitsFor [.colName "x"] twoPlainColumns =
      .ok (.decodeColumn intColumnNoCodec.data,
        intColumnNoCodec.data.full_type.decode, i64Shl 1 63,
        [QueryPlan.encodedGroupByPlaceholder]) :=
  (single_column_max_cardinality bitsFor (.colName "x") twoPlainColumns
    (.decodeColumn intColumnNoCodec.data)
    intColumnNoCodec.data.full_type.decode rfl).2.1 rfl


/-! ## Sum aggregation decodes non-summation-preserving values (C4) -/

lemma decode_summation_preserving (t : Typ) :
    t.decode.is_summation_preserving = true := rfl

/-- C4: in `prepare_aggregation`, `Sum` over a type that is not
summation-preserving behaves exactly as `Sum` over the explicitly decoded
plan (`DecodeWith` through the type's codec) at the decoded type — the
value plan is wrapped before the summation operator is built, so summation
operates on decoded logical values; a summation-preserving type's plan is
lowered unchanged, with the summation operator appended over its buffer. -/
theorem sum_wraps_non_summation_preserving
    (plan : QueryPlan) (ty : Typ) (grouping_key : BufferRef)
    (grouping_type : EncodingType) (max_index : Nat) (ex : QueryExecutor) :
    (∀ codec, ty.codec = some codec → ty.is_summation_preserving = false →
      prepare_aggregation plan ty grouping_key grouping_type max_index .sum ex =
        prepare_aggregation (.decodeWith plan codec) ty.decode grouping_key
          grouping_type max_index .sum ex) ∧
    (ty.is_summation_preserving = true →
      prepare_aggregation plan ty grouping_key grouping_type max_index .sum ex =
        (prepare plan (ex.new_buffer).2).map (fun r =>
          ((ex.new_buffer).1,
            r.2.push (.summation r.1 grouping_key (ex.new_buffer).1
              ty.encoding_type grouping_type max_index false)))) := by
  constructor
  · intro codec hcodec hs
    simp only [prepare_aggregation, hs, hcodec, decode_summation_preserving,
      Bool.false_eq_true, if_false, if_true, Option.some_bind]
    rfl
  · intro hs
    simp only [prepare_aggregation, hs, if_true, Option.some_bind]
    cases hp : prepare plan (ex.new_buffer).2 with
    | none => simp [hp]
    | some r => simp [hp]

/-- A concrete codec that does not preserve summation, and an encoded
integer type built from it, used to instantiate the aggregation and
grouping theorems. -/
def nonSumCodec : ColumnCodec :=
  { encoding_type := .u8, encoding_range := some (0, 3),
    is_order_preserving := true, is_summation_preserving := false,
    decode := fun v => v, encode := fun v => v }

def tyNonSum : Typ := Typ.new .integer (some nonSumCodec)

/-- Witness: for a concrete non-summation-preserving type, `Sum` lowering
equals `Sum` lowering of the explicitly decoded plan. -/
theorem sum_wraps_non_summation_preserving_witness :
    prepare_aggregation (.constant (.int 1)) tyNonSum ⟨0⟩ .i64 4 .sum
        .default =
      prepare_aggregation (.decodeWith (.constant (.int 1)) nonSumCodec)
        tyNonSum.decode ⟨0⟩ .i64 4 .sum .default :=
  (sum_wraps_non_summation_preserving (.constant (.int 1)) tyNonSum ⟨0⟩
    .i64 4 .default).1 nonSumCodec rfl rfl


/-! ## Buffer discipline of `prepare` (C8) -/

/-- The plan nodes whose `prepare` arm appends an operator and allocates a
fresh output buffer: everything except `And`/`Or` (append an operator but
allocate nothing, returning the left operand's buffer) and the two
pass-through nodes `ReadBuffer` / `EncodedGroupByPlaceholder`. -/
def allocatesOwnBuffer : QueryPlan → Bool
  | .and _ _ => false
  | .or _ _ => false
  | .readBuffer _ => false
  | .encodedGroupByPlaceholder => false
  | _ => true

/-- Lower exactly the children of a node, in the order `prepare` lowers
them, returning the executor state reached just before the node's own
operator is appended. -/
def prepareChildren : QueryPlan → QueryExecutor → Option QueryExecutor
  | .decodeColumn _, ex => some ex
  | .readColumn _, ex => some ex
  | .constant _, ex => some ex
  | .decodeWith plan _, ex => (prepare plan ex).map (fun x => x.2)
  | .typeConversion plan _ _, ex => (prepare plan ex).map (fun x => x.2)
  | .encodeStrConstant plan _, ex => (prepare plan ex).map (fun x => x.2)
  | .encodeIntConstant plan _, ex => (prepare plan ex).map (fun x => x.2)
  | .bitUnpack plan _ _, ex => (prepare plan ex).map (fun x => x.2)
  | .sortIndices plan _, ex => (prepare plan ex).map (fun x => x.2)
  | .bitPack lhs rhs _, ex =>
      (prepare lhs ex).bind (fun x => (prepare rhs x.2).map (fun y => y.2))
  | .lessThanVS _ lhs rhs, ex =>
      (prepare lhs ex).bind (fun x => (prepare rhs x.2).map (fun y => y.2))
  | .equalsVS _ lhs rhs, ex =>
      (prepare lhs ex).bind (fun x => (prepare rhs x.2).map (fun y => y.2))
  | .and lhs rhs, ex =>
      (prepare lhs ex).bind (fun x => (prepare rhs x.2).map (fun y => y.2))
  | .or lhs rhs, ex =>
      (prepare lhs ex).bind (fun x => (prepare rhs x.2).map (fun y => y.2))
  | .readBuffer _, ex => some ex
  | .encodedGroupByPlaceholder, ex => some ex

lemma some_emit_spec {ex ex' : QueryExecutor} {f : BufferRef → VecOp}
    {b : BufferRef}
    (hp : (some (emit ex f) : Option (BufferRef × QueryExecutor)) = some (b, ex')) :
    b = ⟨ex.count⟩ ∧ ex'.count = ex.count + 1 ∧
      ex'.current.ops = ex.current.ops ++ [f ⟨ex.count⟩] ∧
      ex'.current.encoded_group_by = ex.current.encoded_group_by := by
  rw [Option.some.injEq, Prod.ext_iff] at hp
  obtain ⟨h1, h2⟩ := hp
  subst h1
  subst h2
  exact ⟨rfl, rfl, rfl, rfl⟩

lemma bind_emit_spec {k : Option (BufferRef × QueryExecutor)}
    (g : BufferRef → BufferRef → VecOp) {b : BufferRef} {ex' : QueryExecutor}
    (hp : (do
        let (input, r) ← k
        some (emit r (fun buf => g input buf))) = some (b, ex')) :
    ∃ input exm, k = some (input, exm) ∧ b = ⟨exm.count⟩ ∧
      ex'.count = exm.count + 1 ∧
      ex'.current.ops = exm.current.ops ++ [g input ⟨exm.count⟩] ∧
      ex'.current.encoded_group_by = exm.current.encoded_group_by := by
  cases k with
  | none => simp at hp
  | some x =>
      obtain ⟨input, exm⟩ := x
      simp only [Option.bind_eq_bind, Option.some_bind] at hp
      rw [Option.some.injEq, Prod.ext_iff] at hp
      obtain ⟨h1, h2⟩ := hp
      subst h1
      subst h2
      exact ⟨input, exm, rfl, rfl, rfl, rfl, rfl⟩

lemma bind2_emit_spec {k : Option (BufferRef × QueryExecutor)}
    {k2 : QueryExecutor → Option (BufferRef × QueryExecutor)}
    (g : BufferRef → BufferRef → BufferRef → VecOp) {b : BufferRef}
    {ex' : QueryExecutor}
    (hp : (do
        let (l, r1) ← k
        let (r, r2) ← k2 r1
        some (emit r2 (fun buf => g l r buf))) = some (b, ex')) :
    ∃ l exm1 r exm2, k = some (l, exm1) ∧ k2 exm1 = some (r, exm2) ∧
      b = ⟨exm2.count⟩ ∧ ex'.count = exm2.count + 1 ∧
      ex'.current.ops = exm2.current.ops ++ [g l r ⟨exm2.count⟩] ∧
      ex'.current.encoded_group_by = exm2.current.encoded_group_by := by
  cases k with
  | none => simp at hp
  | some x =>
      obtain ⟨l, exm1⟩ := x
      simp only [Option.bind_eq_bind, Option.some_bind] at hp
      cases h2k : k2 exm1 with
      | none => rw [h2k] at hp; simp at hp
      | some y =>
          obtain ⟨r, exm2⟩ := y
          rw [h2k] at hp
          simp only [Option.bind_eq_bind, Option.some_bind] at hp
          rw [Option.some.injEq, Prod.ext_iff] at hp
          obtain ⟨h1, h2⟩ := hp
          subst h1
          subst h2
          exact ⟨l, exm1, r, exm2, rfl, h2k, rfl, rfl, rfl, rfl⟩


lemma bind2_push_spec {k : Option (BufferRef × QueryExecutor)}
    {k2 : QueryExecutor → Option (BufferRef × QueryExecutor)}
    (op : BufferRef → BufferRef → VecOp) {b : BufferRef} {ex' : QueryExecutor}
    (hp : (do
        let (l, r1) ← k
        let (r, r2) ← k2 r1
        let r3 := r2.push (op l r)
        some (l, r3)) = some (b, ex')) :
    ∃ exm1 r exm2, k = some (b, exm1) ∧ k2 exm1 = some (r, exm2) ∧
      ex' = exm2.push (op b r) := by
  cases k with
  | none => simp at hp
  | some x =>
      obtain ⟨l, exm1⟩ := x
      simp only [Option.bind_eq_bind, Option.some_bind] at hp
      cases h2k : k2 exm1 with
      | none => rw [h2k] at hp; simp at hp
      | some y =>
          obtain ⟨r, exm2⟩ := y
          rw [h2k] at hp
          simp only [Option.bind_eq_bind, Option.some_bind] at hp
          rw [Option.some.injEq, Prod.ext_iff] at hp
          obtain ⟨h1, h2⟩ := hp
          simp only at h1 h2
          subst h1
          subst h2
          exact ⟨exm1, r, exm2, rfl, h2k, rfl⟩

/-- C8: `And`/`Or` lower the left operand, then the right operand, append
the boolean operator over the two operand buffers, and return the left
operand's handle; the resulting executor is the right-lowering's executor
with one operator pushed and no new buffer allocated.  Every other plan
node that appends an operator (everything but the two pass-through nodes)
first lowers its children, then allocates exactly one fresh buffer for its
own output, appends exactly one operator, and returns that fresh handle. -/
theorem boolean_ops_in_place_others_allocate_one :
    (∀ lhs rhs ex lb ex1 rb ex2,
      prepare lhs ex = some (lb, ex1) → prepare rhs ex1 = some (rb, ex2) →
      prepare (.and lhs rhs) ex = some (lb, ex2.push (.booleanAnd lb rb)) ∧
      prepare (.or lhs rhs) ex = some (lb, ex2.push (.booleanOr lb rb)) ∧
      (ex2.push (.booleanAnd lb rb)).count = ex2.count ∧
      (ex2.push (.booleanOr lb rb)).count = ex2.count ∧
      (ex2.push (.booleanAnd lb rb)).current.ops =
        ex2.current.ops ++ [.booleanAnd lb rb] ∧
      (ex2.push (.booleanOr lb rb)).current.ops =
        ex2.current.ops ++ [.booleanOr lb rb]) ∧
    (∀ plan, allocatesOwnBuffer plan = true →
      ∀ ex b ex', prepare plan ex = some (b, ex') →
      ∃ exc, prepareChildren plan ex = some exc ∧ b = ⟨exc.count⟩ ∧
        ex'.count = exc.count + 1 ∧
        ∃ op, ex'.current.ops = exc.current.ops ++ [op]) := by
  constructor
  · intro lhs rhs ex lb ex1 rb ex2 hl hr
    refine ⟨?_, ?_, rfl, rfl, rfl, rfl⟩ <;>
      simp [prepare, hl, hr]
  · intro plan halloc ex b ex' hp
    cases plan with
    | decodeColumn col =>
        simp only [prepare] at hp
        obtain ⟨h1, h2, h3, -⟩ := some_emit_spec hp
        exact ⟨ex, rfl, h1, h2, _, h3⟩
    | readColumn codec =>
        simp only [prepare] at hp
        obtain ⟨h1, h2, h3, -⟩ := some_emit_spec hp
        exact ⟨ex, rfl, h1, h2, _, h3⟩
    | constant c =>
        simp only [prepare] at hp
        obtain ⟨h1, h2, h3, -⟩ := some_emit_spec hp
        exact ⟨ex, rfl, h1, h2, _, h3⟩
    | decodeWith plan codec =>
        simp only [prepare] at hp
        obtain ⟨input, exm, hk, h1, h2, h3, -⟩ :=
          bind_emit_spec (fun input buf => VecOp.decodeWith input buf codec) hp
        exact ⟨exm, by simp [prepareChildren, hk], h1, h2, _, h3⟩
    | typeConversion plan it tt =>
        simp only [prepare] at hp
        obtain ⟨input, exm, hk, h1, h2, h3, -⟩ :=
          bind_emit_spec (fun input buf => VecOp.typeConversion input buf it tt) hp
        exact ⟨exm, by simp [prepareChildren, hk], h1, h2, _, h3⟩
    | encodeStrConstant plan codec =>
        simp only [prepare] at hp
        obtain ⟨input, exm, hk, h1, h2, h3, -⟩ :=
          bind_emit_spec (fun input buf => VecOp.encodeStrConstant input buf codec) hp
        exact ⟨exm, by simp [prepareChildren, hk], h1, h2, _, h3⟩
    | encodeIntConstant plan codec =>
        simp only [prepare] at hp
        obtain ⟨input, exm, hk, h1, h2, h3, -⟩ :=
          bind_emit_spec (fun input buf => VecOp.encodeIntConstant input buf codec) hp
        exact ⟨exm, by simp [prepareChildren, hk], h1, h2, _, h3⟩
    | bitUnpack plan sh w =>
        simp only [prepare] at hp
        obtain ⟨input, exm, hk, h1, h2, h3, -⟩ :=
          bind_emit_spec (fun input buf => VecOp.bitUnpack input buf sh w) hp
        exact ⟨exm, by simp [prepareChildren, hk], h1, h2, _, h3⟩
    | sortIndices plan desc =>
        simp only [prepare] at hp
        obtain ⟨input, exm, hk, h1, h2, h3, -⟩ :=
          bind_emit_spec (fun input buf => VecOp.sortIndices input buf desc) hp
        exact ⟨exm, by simp [prepareChildren, hk], h1, h2, _, h3⟩
    | bitPack lhs rhs sh =>
        simp only [prepare] at hp
        obtain ⟨l, exm1, r, exm2, hk1, hk2, h1, h2, h3, -⟩ :=
          bind2_emit_spec (fun l r buf => VecOp.bitShiftLeftAdd l r buf sh) hp
        exact ⟨exm2, by simp [prepareChildren, hk1, hk2], h1, h2, _, h3⟩
    | lessThanVS t lhs rhs =>
        simp only [prepare] at hp
        obtain ⟨l, exm1, r, exm2, hk1, hk2, h1, h2, h3, -⟩ :=
          bind2_emit_spec (fun l r buf => VecOp.lessThanVS t l r buf) hp
        exact ⟨exm2, by simp [prepareChildren, hk1, hk2], h1, h2, _, h3⟩
    | equalsVS t lhs rhs =>
        simp only [prepare] at hp
        obtain ⟨l, exm1, r, exm2, hk1, hk2, h1, h2, h3, -⟩ :=
          bind2_emit_spec (fun l r buf => VecOp.equalsVS t l r buf) hp
        exact ⟨exm2, by simp [prepareChildren, hk1, hk2], h1, h2, _, h3⟩
    | and lhs rhs => simp [allocatesOwnBuffer] at halloc
    | or lhs rhs => simp [allocatesOwnBuffer] at halloc
    | readBuffer buf => simp [allocatesOwnBuffer] at halloc
    | encodedGroupByPlaceholder => simp [allocatesOwnBuffer] at halloc

/-- Witness: lowering `And` over two boolean constants returns the left
constant's buffer (index 0) and ends with exactly the two constant
operators followed by the in-place boolean operator, with only the two
operand buffers allocated. -/
theorem boolean_ops_in_place_witness :
    prepare (.and (.constant (.boolean true)) (.constant (.boolean false)))
        QueryExecutor.default =
      some (⟨0⟩,
        ⟨[], ⟨[.constant (.boolean true) ⟨0⟩, .constant (.boolean false) ⟨1⟩,
          .booleanAnd ⟨0⟩ ⟨1⟩], none, .none⟩, 2⟩) := by
  have h := (boolean_ops_in_place_others_allocate_one).1
    (.constant (.boolean true)) (.constant (.boolean false))
    QueryExecutor.default ⟨0⟩ _ ⟨1⟩ _ rfl rfl
  exact h.1


/-! ## Buffer handles stay in bounds (C9) -/

/-- Every `ReadBuffer` leaf of the plan refers to a buffer index below
`n`. -/
def planWF : QueryPlan → Nat → Bool
  | .readBuffer b, n => decide (b.idx < n)
  | .decodeWith p _, n => planWF p n
  | .typeConversion p _ _, n => planWF p n
  | .encodeStrConstant p _, n => planWF p n
  | .encodeIntConstant p _, n => planWF p n
  | .bitUnpack p _ _, n => planWF p n
  | .sortIndices p _, n => planWF p n
  | .bitPack l r _, n => planWF l n && planWF r n
  | .lessThanVS _ l r, n => planWF l n && planWF r n
  | .equalsVS _ l r, n => planWF l n && planWF r n
  | .and l r, n => planWF l n && planWF r n
  | .or l r, n => planWF l n && planWF r n
  | .readColumn _, _ => true
  | .decodeColumn _, _ => true
  | .encodedGroupByPlaceholder, _ => true
  | .constant _, _ => true

/-- The current stage's registered group-key buffer, when present, was
allocated by this executor (its index is below the buffer count). -/
def gbWF (ex : QueryExecutor) : Bool :=
  match ex.encoded_group_by with
  | some gb => decide (gb.idx < ex.count)
  | none => true

lemma prepare_invariant (plan : QueryPlan) : ∀ ex b ex',
    prepare plan ex = some (b, ex') →
    ex.count ≤ ex'.count ∧
    ex'.current.encoded_group_by = ex.current.encoded_group_by ∧
    (planWF plan ex.count = true → gbWF ex = true → b.idx < ex'.count) := by
  induction plan with
  | decodeColumn col =>
      intro ex b ex' hp
      simp only [prepare] at hp
      obtain ⟨h1, h2, -, h4⟩ := some_emit_spec hp
      subst h1
      exact ⟨by omega, h4, fun _ _ => by rw [h2]; exact Nat.lt_succ_self _⟩
  | readColumn codec =>
      intro ex b ex' hp
      simp only [prepare] at hp
      obtain ⟨h1, h2, -, h4⟩ := some_emit_spec hp
      subst h1
      exact ⟨by omega, h4, fun _ _ => by rw [h2]; exact Nat.lt_succ_self _⟩
  | constant c =>
      intro ex b ex' hp
      simp only [prepare] at hp
      obtain ⟨h1, h2, -, h4⟩ := some_emit_spec hp
      subst h1
      exact ⟨by omega, h4, fun _ _ => by rw [h2]; exact Nat.lt_succ_self _⟩
  | decodeWith p codec ih =>
      intro ex b ex' hp
      simp only [prepare] at hp
      obtain ⟨input, exm, hk, h1, h2, -, h4⟩ :=
        bind_emit_spec (fun input buf => VecOp.decodeWith input buf codec) hp
      obtain ⟨c1, c2, -⟩ := ih ex input exm hk
      subst h1
      exact ⟨by omega, by rw [h4, c2], fun _ _ => by rw [h2]; exact Nat.lt_succ_self _⟩
  | typeConversion p it tt ih =>
      intro ex b ex' hp
      simp only [prepare] at hp
      obtain ⟨input, exm, hk, h1, h2, -, h4⟩ :=
        bind_emit_spec (fun input buf => VecOp.typeConversion input buf it tt) hp
      obtain ⟨c1, c2, -⟩ := ih ex input exm hk
      subst h1
      exact ⟨by omega, by rw [h4, c2], fun _ _ => by rw [h2]; exact Nat.lt_succ_self _⟩
  | encodeStrConstant p codec ih =>
      intro ex b ex' hp
      simp only [prepare] at hp
      obtain ⟨input, exm, hk, h1, h2, -, h4⟩ :=
        bind_emit_spec (fun input buf => VecOp.encodeStrConstant input buf codec) hp
      obtain ⟨c1, c2, -⟩ := ih ex input exm hk
      subst h1
      exact ⟨by omega, by rw [h4, c2], fun _ _ => by rw [h2]; exact Nat.lt_succ_self _⟩
  | encodeIntConstant p codec ih =>
      intro ex b ex' hp
      simp only [prepare] at hp
      obtain ⟨input, exm, hk, h1, h2, -, h4⟩ :=
        bind_emit_spec (fun input buf => VecOp.encodeIntConstant input buf codec) hp
      obtain ⟨c1, c2, -⟩ := ih ex input exm hk
      subst h1
      exact ⟨by omega, by rw [h4, c2], fun _ _ => by rw [h2]; exact Nat.lt_succ_self _⟩
  | bitUnpack p sh w ih =>
      intro ex b ex' hp
      simp only [prepare] at hp
      obtain ⟨input, exm, hk, h1, h2, -, h4⟩ :=
        bind_emit_spec (fun input buf => VecOp.bitUnpack input buf sh w) hp
      obtain ⟨c1, c2, -⟩ := ih ex input exm hk
      subst h1
      exact ⟨by omega, by rw [h4, c2], fun _ _ => by rw [h2]; exact Nat.lt_succ_self _⟩
  | sortIndices p d ih =>
      intro ex b ex' hp
      simp only [prepare] at hp
      obtain ⟨input, exm, hk, h1, h2, -, h4⟩ :=
        bind_emit_spec (fun input buf => VecOp.sortIndices input buf d) hp
      obtain ⟨c1, c2, -⟩ := ih ex input exm hk
      subst h1
      exact ⟨by omega, by rw [h4, c2], fun _ _ => by rw [h2]; exact Nat.lt_succ_self _⟩
  | bitPack l r s ihl ihr =>
      intro ex b ex' hp
      simp only [prepare] at hp
      obtain ⟨lb, exm1, rb, exm2, hk1, hk2, h1, h2, -, h4⟩ :=
        bind2_emit_spec (fun l r buf => VecOp.bitShiftLeftAdd l r buf s) hp
      obtain ⟨c1, c2, -⟩ := ihl ex lb exm1 hk1
      obtain ⟨d1, d2, -⟩ := ihr exm1 rb exm2 hk2
      subst h1
      exact ⟨by omega, by rw [h4, d2, c2], fun _ _ => by rw [h2]; exact Nat.lt_succ_self _⟩
  | lessThanVS t l r ihl ihr =>
      intro ex b ex' hp
      simp only [prepare] at hp
      obtain ⟨lb, exm1, rb, exm2, hk1, hk2, h1, h2, -, h4⟩ :=
        bind2_emit_spec (fun l r buf => VecOp.lessThanVS t l r buf) hp
      obtain ⟨c1, c2, -⟩ := ihl ex lb exm1 hk1
      obtain ⟨d1, d2, -⟩ := ihr exm1 rb exm2 hk2
      subst h1
      exact ⟨by omega, by rw [h4, d2, c2], fun _ _ => by rw [h2]; exact Nat.lt_succ_self _⟩
  | equalsVS t l r ihl ihr =>
      intro ex b ex' hp
      simp only [prepare] at hp
      obtain ⟨lb, exm1, rb, exm2, hk1, hk2, h1, h2, -, h4⟩ :=
        bind2_emit_spec (fun l r buf => VecOp.equalsVS t l r buf) hp
      obtain ⟨c1, c2, -⟩ := ihl ex lb exm1 hk1
      obtain ⟨d1, d2, -⟩ := ihr exm1 rb exm2 hk2
      subst h1
      exact ⟨by omega, by rw [h4, d2, c2], fun _ _ => by rw [h2]; exact Nat.lt_succ_self _⟩
  | and l r ihl ihr =>
      intro ex b ex' hp
      simp only [prepare] at hp
      obtain ⟨exm1, rb, exm2, hk1, hk2, hex⟩ :=
        bind2_push_spec (fun l r => VecOp.booleanAnd l r) hp
      obtain ⟨c1, c2, c3⟩ := ihl ex b exm1 hk1
      obtain ⟨d1, d2, -⟩ := ihr exm1 rb exm2 hk2
      subst hex
      refine ⟨by simp only [push_count]; omega, by rw [push_group_by, d2, c2], ?_⟩
      intro hwf hgb
      simp only [planWF, Bool.and_eq_true] at hwf
      have hb := c3 hwf.1 hgb
      simp only [push_count]
      omega
  | or l r ihl ihr =>
      intro ex b ex' hp
      simp only [prepare] at hp
      obtain ⟨exm1, rb, exm2, hk1, hk2, hex⟩ :=
        bind2_push_spec (fun l r => VecOp.booleanOr l r) hp
      obtain ⟨c1, c2, c3⟩ := ihl ex b exm1 hk1
      obtain ⟨d1, d2, -⟩ := ihr exm1 rb exm2 hk2
      subst hex
      refine ⟨by simp only [push_count]; omega, by rw [push_group_by, d2, c2], ?_⟩
      intro hwf hgb
      simp only [planWF, Bool.and_eq_true] at hwf
      have hb := c3 hwf.1 hgb
      simp only [push_count]
      omega
  | readBuffer buf =>
      intro ex b ex' hp
      simp only [prepare, Option.some.injEq, Prod.mk.injEq] at hp
      obtain ⟨h1, h2⟩ := hp
      subst h1
      subst h2
      refine ⟨le_refl _, rfl, fun hwf _ => ?_⟩
      simp only [planWF, decide_eq_true_eq] at hwf
      exact hwf
  | encodedGroupByPlaceholder =>
      intro ex b ex' hp
      simp only [prepare] at hp
      cases hgb : ex.encoded_group_by with
      | none => rw [hgb] at hp; simp at hp
      | some gb =>
          rw [hgb] at hp
          simp only [Option.bind_eq_bind, Option.some_bind, Option.some.injEq,
            Prod.mk.injEq] at hp
          obtain ⟨h1, h2⟩ := hp
          subst h1
          subst h2
          refine ⟨le_refl _, rfl, fun _ hg => ?_⟩
          unfold gbWF at hg
          rw [hgb] at hg
          simp only [decide_eq_true_eq] at hg
          exact hg

/-- C9: `new_buffer` hands out consecutive indices starting at 0 (the
default executor has count 0, each call returns the current count and
increments it); for any lowered plan whose `ReadBuffer` leaves and — if
the plan uses the group-by placeholder — registered group-key buffer were
allocated by this executor, the handle `prepare` returns is strictly below
the final buffer count, which never decreases; and `run` allocates its
scratchpad with exactly `count` slots, so every such handle addresses an
in-bounds slot. -/
theorem buffer_handles_in_bounds :
    (∀ ex : QueryExecutor, (ex.new_buffer).1.idx = ex.count ∧
      (ex.new_buffer).2.count = ex.count + 1) ∧
    QueryExecutor.default.count = 0 ∧
    (∀ ex : QueryExecutor, ex.run.size = ex.count) ∧
    (∀ plan ex b ex', prepare plan ex = some (b, ex') →
      planWF plan ex.count = true → gbWF ex = true →
      ex.count ≤ ex'.count ∧ b.idx < ex'.count) := by
  refine ⟨fun ex => ⟨rfl, rfl⟩, rfl, fun ex => rfl, ?_⟩
  intro plan ex b ex' hp hwf hgb
  obtain ⟨c1, -, c3⟩ := prepare_invariant plan ex b ex' hp
  exact ⟨c1, c3 hwf hgb⟩

/-- Witness: a `ReadBuffer` handle referring to the one allocated buffer
of an executor stays below its buffer count. -/
theorem buffer_handles_in_bounds_witness :
    (QueryExecutor.default.new_buffer).2.count ≤
      (QueryExecutor.default.new_buffer).2.count ∧
    (BufferRef.mk 0).idx < (QueryExecutor.default.new_buffer).2.count :=
  (buffer_handles_in_bounds).2.2.2 (.readBuffer ⟨0⟩)
    (QueryExecutor.default.new_buffer).2 ⟨0⟩
    (QueryExecutor.default.new_buffer).2 rfl (by decide) (by decide)


/-! ## When grouping-key compilation fails (C7) -/

lemma bitsFor_pos (mx : Int) : 0 < bitsFor mx := by
  simp only [bitsFor]
  omega

/-- A packing column is unusable, in the claim's words: its encoding range
is statically unknown, or its statically-known minimum is negative. -/
def rangeBad (p : QueryPlan) : Bool :=
  match p.encoding_range with
  | none => true
  | some (mn, _) => decide (mn < 0)

/-- The claim's failure condition for the two-column case: some column is
unusable, or the accumulated total bit width (measured by the program's
width function `bitsOf`) exceeds 64. -/
def packFails (bitsOf : Int → Int) (p1 p2 : QueryPlan) : Bool :=
  rangeBad p1 || rangeBad p2 ||
    match p1.encoding_range, p2.encoding_range with
    | some (_, mx1), some (_, mx2) => decide (bitsOf mx1 + bitsOf mx2 > 64)
    | _, _ => false

/-- C7 (counterexample): with zero grouping expressions,
`compile_grouping_key` fails with `NotImplemented` although the claim's
conditions do not apply — zero expressions are not "more than two". -/
theorem compile_grouping_key_zero_exprs_not_implemented :
    compile_grouping_key bitsFor [] (fun _ => none) = .error .notImplemented ∧
    ¬ (([] : List Expr).length > 2) :=
  ⟨rfl, by decide⟩

/-- C7 (amended): given that every grouping expression itself compiles,
`compile_grouping_key` fails with `NotImplemented` exactly when the number
of expressions differs from one and two, or, in the two-column case, some
column's encoding range is statically unknown, some statically-known
minimum is negative, or the accumulated total bit width exceeds 64 bits.
The program's width function `bitsOf` is a parameter; the only property
used is that it is positive, which holds of every faithful
implementation of `(max as f64).log2().floor() as i64 + 1` on the ranges
the program reaches. -/
theorem compile_grouping_key_not_implemented_iff
    (bitsOf : Int → Int) (hpos : ∀ mx, 0 < bitsOf mx)
    (exprs : List Expr) (columns : Columns)
    (hok : ∀ e ∈ exprs, ∃ r, create_query_plan e columns = .ok r) :
    compile_grouping_key bitsOf exprs columns = .error .notImplemented ↔
      (exprs.length ≠ 1 ∧ exprs.length ≠ 2) ∨
      (∃ e1 e2 p1 t1 p2 t2, exprs = [e1, e2] ∧
        create_query_plan e1 columns = .ok (p1, t1) ∧
        create_query_plan e2 columns = .ok (p2, t2) ∧
        packFails bitsOf p1 p2 = true) := by
  cases exprs with
  | nil =>
      simp [compile_grouping_key]
  | cons e1 rest =>
    cases rest with
    | nil =>
        obtain ⟨⟨p1, t1⟩, h1⟩ := hok e1 (by simp)
        simp [compile_grouping_key, h1, Except.map]
    | cons e2 rest2 =>
      cases rest2 with
      | cons e3 rest3 =>
          refine ⟨fun _ => Or.inl ⟨?_, ?_⟩, fun _ => rfl⟩ <;>
            simp only [List.length_cons] <;> omega
      | nil =>
          obtain ⟨⟨p1, t1⟩, h1⟩ := hok e1 (by simp)
          obtain ⟨⟨p2, t2⟩, h2⟩ := hok e2 (by simp)
          have hlen : ¬ (([e1, e2] : List Expr).length ≠ 1 ∧
              ([e1, e2] : List Expr).length ≠ 2) := by simp
          simp only [compile_grouping_key, groupLoop, h2, ok_bind]
          rcases hr2 : p2.encoding_range with _ | ⟨mn2, mx2⟩
          · simp only [hr2, ok_bind]
            exact iff_of_true (by trivial)
              (Or.inr ⟨e1, e2, p1, t1, p2, t2, rfl, h1, h2,
                by simp [packFails, rangeBad, hr2]⟩)
          · by_cases hm2 : mn2 < 0
            · simp only [hr2, if_pos hm2, ok_bind]
              exact iff_of_true (by trivial)
                (Or.inr ⟨e1, e2, p1, t1, p2, t2, rfl, h1, h2,
                  by simp [packFails, rangeBad, hr2, hm2]⟩)
            · have hb2 : ((0 : Int) + bitsOf mx2 == 0) = false := by
                have := hpos mx2
                simp only [beq_eq_false_iff_ne, ne_eq]
                omega
              simp only [hr2, if_neg hm2, groupLoop, h1, ok_bind,
                beq_self_eq_true, if_true, hb2, if_false, Bool.false_eq_true]
              rcases hr1 : p1.encoding_range with _ | ⟨mn1, mx1⟩
              · simp only [hr1, ok_bind]
                exact iff_of_true (by trivial)
                  (Or.inr ⟨e1, e2, p1, t1, p2, t2, rfl, h1, h2,
                    by simp [packFails, rangeBad, hr1]⟩)
              · by_cases hm1 : mn1 < 0
                · simp only [hr1, if_pos hm1, ok_bind]
                  exact iff_of_true (by trivial)
                    (Or.inr ⟨e1, e2, p1, t1, p2, t2, rfl, h1, h2,
                      by simp [packFails, rangeBad, hr1, hm1]⟩)
                · simp only [hr1, if_neg hm1, groupLoop, ok_bind, Option.map_some]
                  by_cases h64 : (0 : Int) + bitsOf mx2 + bitsOf mx1 ≤ 64
                  · simp only [if_pos h64]
                    refine iff_of_false (by simp) ?_
                    rintro (⟨-, hb⟩ | ⟨e1', e2', p1', t1', p2', t2', heq, hc1, hc2, hpf⟩)
                    · simp at hb
                    · obtain ⟨rfl, rfl⟩ : e1' = e1 ∧ e2' = e2 := by
                        simpa using heq.symm
                      rw [h1] at hc1
                      rw [h2] at hc2
                      obtain ⟨rfl, rfl⟩ : p1' = p1 ∧ t1' = t1 := by
                        simpa using hc1.symm
                      obtain ⟨rfl, rfl⟩ : p2' = p2 ∧ t2' = t2 := by
                        simpa using hc2.symm
                      simp only [packFails, rangeBad, hr1, hr2,
                        Bool.or_eq_true, decide_eq_true_eq] at hpf
                      rcases hpf with ((h | h) | h) <;> omega
                  · simp only [if_neg h64]
                    refine iff_of_true (by trivial)
                      (Or.inr ⟨e1, e2, p1, t1, p2, t2, rfl, h1, h2, ?_⟩)
                    simp only [packFails, rangeBad, hr1, hr2,
                      Bool.or_eq_true, decide_eq_true_eq]
                    right
                    omega


/-! ## Grouping-key pack/unpack inverse (C1) -/

lemma wrap64_sub (n : Int) : ∃ k : Int, wrap64 n = n - 2 ^ 64 * k := by
  refine ⟨(n + 2 ^ 63) / 2 ^ 64, ?_⟩
  simp only [wrap64]
  rw [Int.emod_def]
  ring

/-- The arithmetic heart of the round trip: packing `v1` above `v2` into a
64-bit key (with `i64` wrapping at each step) and then unpacking with an
arithmetic right shift and a mask recovers both values, as long as the
widths fit in 64 bits. -/
lemma bit_roundtrip (v1 v2 : Int) (w1 w2 : Nat)
    (h1 : 0 ≤ v1) (h1' : v1 < 2 ^ w1) (h2 : 0 ≤ v2) (h2' : v2 < 2 ^ w2)
    (hw : w1 + w2 ≤ 64) :
    (wrap64 (v2 + wrap64 (v1 * 2 ^ w2)) / 2 ^ (0 : Nat)) % 2 ^ w2 = v2 ∧
    (wrap64 (v2 + wrap64 (v1 * 2 ^ w2)) / 2 ^ w2) % 2 ^ w1 = v1 := by
  obtain ⟨kA, hA⟩ := wrap64_sub (v1 * 2 ^ w2)
  obtain ⟨kK, hK⟩ := wrap64_sub (v2 + wrap64 (v1 * 2 ^ w2))
  have hkeyEq : wrap64 (v2 + wrap64 (v1 * 2 ^ w2)) =
      v2 + v1 * 2 ^ w2 - 2 ^ 64 * (kA + kK) := by
    rw [hK, hA]; ring
  have hsplit : (2 : Int) ^ 64 = 2 ^ w2 * 2 ^ (64 - w2) := by
    rw [← pow_add]; congr 1; omega
  have hsplit2 : (2 : Int) ^ (64 - w2) = 2 ^ w1 * 2 ^ (64 - w2 - w1) := by
    rw [← pow_add]; congr 1; omega
  have hkey2 : wrap64 (v2 + wrap64 (v1 * 2 ^ w2)) =
      v2 + (v1 - 2 ^ (64 - w2) * (kA + kK)) * 2 ^ w2 := by
    rw [hkeyEq, hsplit]; ring
  constructor
  · rw [pow_zero, Int.ediv_one, hkey2, Int.add_mul_emod_self]
    exact Int.emod_eq_of_lt h2 h2'
  · rw [hkey2, Int.add_mul_ediv_right _ _ (by positivity : (2 : Int) ^ w2 ≠ 0),
      Int.ediv_eq_zero_of_lt h2 h2', zero_add]
    have hrw : v1 - 2 ^ (64 - w2) * (kA + kK) =
        v1 + (-(2 ^ (64 - w2 - w1) * (kA + kK))) * 2 ^ w1 := by
      rw [hsplit2]; ring
    rw [hrw, Int.add_mul_emod_self]
    exact Int.emod_eq_of_lt h1 h1'

/-- The range maximum is below `2 ^ bits` for the bit width the grouping
compiler assigns to it. -/
lemma lt_two_pow_bitsFor (mx : Int) (h : 1 ≤ mx) :
    mx < 2 ^ (bitsFor mx).toNat := by
  have htn : (bitsFor mx).toNat = mx.toNat.log2 + 1 := by
    simp only [bitsFor]
    omega
  have hne : mx.toNat ≠ 0 := by omega
  have := (Nat.log2_lt hne).mp (Nat.lt_succ_self mx.toNat.log2)
  rw [htn]
  have hcast : mx = (mx.toNat : Int) := (Int.toNat_of_nonneg (by omega)).symm
  rw [hcast]
  exact_mod_cast this

/-- An integer column encoded through the given codec. -/
def encodedIntColumn (c : ColumnCodec) : Column := ⟨⟨Typ.new .integer (some c)⟩⟩

/-- A two-column table `(a, b)` of integer columns encoded through the two
given codecs. -/
def twoEncodedColumns (c1 c2 : ColumnCodec) : Columns := fun name =>
  if name = "a" then some (encodedIntColumn c1)
  else if name = "b" then some (encodedIntColumn c2)
  else none


/-- C1: for two grouping columns with statically-known non-negative
encoding ranges whose combined bit width, as computed by the program's
width function `bitsOf` (abstracting the floating-point
`(max as f64).log2().floor() as i64 + 1`), is at most 64,
`compile_grouping_key` returns the packed-key plan (rightmost column in
the low bits) and the two unpack plans in original column order; for
every pair of in-range input values, evaluating the packed-key plan and
then each unpack plan with the key bound to the group-by placeholder
reproduces the original encoded values exactly (and the full unpack
plans additionally redecode them through each column's codec).  The
hypotheses on `bitsOf` — positive width and `max < 2 ^ width` — hold of
every faithful `log2`, which never rounds below the exact floor. -/
theorem grouping_key_pack_unpack_inverse
    (bitsOf : Int → Int)
    (c1 c2 : ColumnCodec) (mn1 mx1 mn2 mx2 : Int)
    (hc1 : c1.encoding_range = some (mn1, mx1))
    (hc2 : c2.encoding_range = some (mn2, mx2))
    (hmn1 : 0 ≤ mn1) (hmn2 : 0 ≤ mn2)
    (hb1 : 0 < bitsOf mx1) (hb2 : 0 < bitsOf mx2)
    (hlt1 : mx1 < 2 ^ (bitsOf mx1).toNat)
    (hlt2 : mx2 < 2 ^ (bitsOf mx2).toNat)
    (hw : bitsOf mx1 + bitsOf mx2 ≤ 64)
    (env : EvalEnv) (v1 v2 : Int)
    (hv1 : env.readCol c1 = .int v1) (hv2 : env.readCol c2 = .int v2)
    (hl1 : mn1 ≤ v1) (hu1 : v1 ≤ mx1) (hl2 : mn2 ≤ v2) (hu2 : v2 ≤ mx2) :
    ∃ maxkey key,
      compile_grouping_key bitsOf [.colName "a", .colName "b"]
          (twoEncodedColumns c1 c2) =
        .ok (.bitPack (.typeConversion (.readColumn c2) c2.encoding_type .i64)
            (.typeConversion (.readColumn c1) c1.encoding_type .i64)
            (bitsOf mx2),
          Typ.new .integer none, maxkey,
          [.decodeWith (.typeConversion (.bitUnpack .encodedGroupByPlaceholder
              (bitsOf mx2).toNat (bitsOf mx1).toNat) .i64 c1.encoding_type) c1,
           .decodeWith (.typeConversion (.bitUnpack .encodedGroupByPlaceholder
              0 (bitsOf mx2).toNat) .i64 c2.encoding_type) c2]) ∧
      evalPlan (.bitPack (.typeConversion (.readColumn c2) c2.encoding_type .i64)
          (.typeConversion (.readColumn c1) c1.encoding_type .i64)
          (bitsOf mx2)) env = some (.int key) ∧
      evalPlan (.typeConversion (.bitUnpack .encodedGroupByPlaceholder
          (bitsOf mx2).toNat (bitsOf mx1).toNat) .i64 c1.encoding_type)
        { env with groupBy := .int key } = some (.int v1) ∧
      evalPlan (.typeConversion (.bitUnpack .encodedGroupByPlaceholder
          0 (bitsOf mx2).toNat) .i64 c2.encoding_type)
        { env with groupBy := .int key } = some (.int v2) ∧
      evalPlan (.decodeWith (.typeConversion (.bitUnpack
          .encodedGroupByPlaceholder (bitsOf mx2).toNat (bitsOf mx1).toNat)
          .i64 c1.encoding_type) c1)
        { env with groupBy := .int key } = some (c1.decode (.int v1)) ∧
      evalPlan (.decodeWith (.typeConversion (.bitUnpack
          .encodedGroupByPlaceholder 0 (bitsOf mx2).toNat)
          .i64 c2.encoding_type) c2)
        { env with groupBy := .int key } = some (c2.decode (.int v2)) := by
  have h1 : create_query_plan (.colName "a") (twoEncodedColumns c1 c2) =
      .ok (.readColumn c1, Typ.new .integer (some c1)) := rfl
  have h2 : create_query_plan (.colName "b") (twoEncodedColumns c1 c2) =
      .ok (.readColumn c2, Typ.new .integer (some c2)) := rfl
  have hp1 : 0 < bitsOf mx1 := hb1
  have hp2 : 0 < bitsOf mx2 := hb2
  have hb2ne : ((bitsOf mx2 : Int) == 0) = false := by
    simp only [beq_eq_false_iff_ne, ne_eq]
    omega
  obtain ⟨hrt1, hrt2⟩ := bit_roundtrip v1 v2 (bitsOf mx1).toNat
    (bitsOf mx2).toNat (by omega)
    (lt_of_le_of_lt hu1 hlt1) (by omega)
    (lt_of_le_of_lt hu2 hlt2) (by omega)
  have hu1ev : evalPlan (.typeConversion (.bitUnpack .encodedGroupByPlaceholder
      (bitsOf mx2).toNat (bitsOf mx1).toNat) .i64 c1.encoding_type)
      { env with groupBy := .int (wrap64 (v2 + i64Shl v1 (bitsOf mx2).toNat)) }
      = some (.int v1) := by
    simp only [evalPlan, Option.bind_eq_bind, Option.some_bind, i64Shl]
    rw [hrt2]
  have hu2ev : evalPlan (.typeConversion (.bitUnpack .encodedGroupByPlaceholder
      0 (bitsOf mx2).toNat) .i64 c2.encoding_type)
      { env with groupBy := .int (wrap64 (v2 + i64Shl v1 (bitsOf mx2).toNat)) }
      = some (.int v2) := by
    simp only [evalPlan, Option.bind_eq_bind, Option.some_bind, i64Shl]
    rw [hrt1]
  refine ⟨wrap64 (wrap64 (i64Shl mx2 0) + i64Shl mx1 (bitsOf mx2).toNat),
    wrap64 (v2 + i64Shl v1 (bitsOf mx2).toNat), ?_, ?_, hu1ev, hu2ev,
    ?_, ?_⟩
  · simp only [compile_grouping_key, groupLoop, h1, h2, ok_bind,
      QueryPlan.encoding_range, hc1, hc2,
      if_neg (show ¬ mn2 < 0 by omega), if_neg (show ¬ mn1 < 0 by omega),
      beq_self_eq_true, if_true, hb2ne, Bool.false_eq_true, if_false,
      Typ.encoding_type, Typ.new, zero_add, Int.toNat_zero,
      if_pos (show (bitsOf mx2 + bitsOf mx1 : Int) ≤ 64 by omega),
      List.reverse_cons, List.reverse_nil, List.nil_append, List.append_nil,
      List.cons_append, List.singleton_append]
    simp [hb2ne]
  · simp only [evalPlan, Option.bind_eq_bind, Option.some_bind, hv1, hv2]
    rw [if_pos ⟨by omega, by omega⟩]
  · rw [evalPlan, hu1ev]
    rfl
  · rw [evalPlan, hu2ev]
    rfl


/-- Concrete codecs and environment instantiating the pack/unpack
round-trip: column `a` ranges over `[0, 3]` (2 bits) holding value 2,
column `b` over `[0, 6]` (3 bits) holding value 5. -/
def c1W : ColumnCodec :=
  { encoding_type := .u8, encoding_range := some (0, 3),
    is_order_preserving := true, is_summation_preserving := true,
    decode := fun v => v, encode := fun v => v }

def c2W : ColumnCodec :=
  { encoding_type := .u8, encoding_range := some (0, 6),
    is_order_preserving := true, is_summation_preserving := true,
    decode := fun v => v, encode := fun v => v }

def envW : EvalEnv :=
  { readCol := fun c => if c.encoding_range = some (0, 3) then .int 2 else .int 5,
    readData := fun _ => .null, groupBy := .null }

/-- Witness for the pack/unpack round trip at the concrete columns. -/
theorem grouping_key_pack_unpack_inverse_witness :
    ∃ maxkey key,
      compile_grouping_key bitsFor [.colName "a", .colName "b"]
          (twoEncodedColumns c1W c2W) =
        .ok (.bitPack (.typeConversion (.readColumn c2W) c2W.encoding_type .i64)
            (.typeConversion (.readColumn c1W) c1W.encoding_type .i64)
            (bitsFor 6),
          Typ.new .integer none, maxkey,
          [.decodeWith (.typeConversion (.bitUnpack .encodedGroupByPlaceholder
              (bitsFor 6).toNat (bitsFor 3).toNat) .i64 c1W.encoding_type) c1W,
           .decodeWith (.typeConversion (.bitUnpack .encodedGroupByPlaceholder
              0 (bitsFor 6).toNat) .i64 c2W.encoding_type) c2W]) ∧
      evalPlan (.bitPack (.typeConversion (.readColumn c2W) c2W.encoding_type .i64)
          (.typeConversion (.readColumn c1W) c1W.encoding_type .i64)
          (bitsFor 6)) envW = some (.int key) ∧
      evalPlan (.typeConversion (.bitUnpack .encodedGroupByPlaceholder
          (bitsFor 6).toNat (bitsFor 3).toNat) .i64 c1W.encoding_type)
        { envW with groupBy := .int key } = some (.int 2) ∧
      evalPlan (.typeConversion (.bitUnpack .encodedGroupByPlaceholder
          0 (bitsFor 6).toNat) .i64 c2W.encoding_type)
        { envW with groupBy := .int key } = some (.int 5) ∧
      evalPlan (.decodeWith (.typeConversion (.bitUnpack
          .encodedGroupByPlaceholder (bitsFor 6).toNat (bitsFor 3).toNat)
          .i64 c1W.encoding_type) c1W)
        { envW with groupBy := .int key } = some (c1W.decode (.int 2)) ∧
      evalPlan (.decodeWith (.typeConversion (.bitUnpack
          .encodedGroupByPlaceholder 0 (bitsFor 6).toNat)
          .i64 c2W.encoding_type) c2W)
        { envW with groupBy := .int key } = some (c2W.decode (.int 5)) :=
  grouping_key_pack_unpack_inverse bitsFor c1W c2W 0 3 0 6 rfl rfl
    (by decide) (by decide) (bitsFor_pos 3) (bitsFor_pos 6)
    (lt_two_pow_bitsFor 3 (by decide)) (lt_two_pow_bitsFor 6 (by decide))
    (by
      have h3 : Nat.log2 3 = 1 := by rw [Nat.log2, Nat.log2]; norm_num
      have h6 : Nat.log2 6 = 2 := by rw [Nat.log2, Nat.log2, Nat.log2]; norm_num
      simp only [bitsFor]
      rw [show Int.toNat 3 = 3 from rfl, show Int.toNat 6 = 6 from rfl, h3, h6]
      norm_num)
    envW 2 5 rfl rfl (by decide) (by decide) (by decide) (by decide)


/-- Witness for the `NotImplemented` characterization: two unencoded
columns compile but have no static ranges, so grouping on both of them
fails exactly as characterized. -/
theorem compile_grouping_key_not_implemented_iff_witness :
    compile_grouping_key bitsFor [.colName "x", .colName "s"] twoPlainColumns =
        .error .notImplemented ↔
      (([Expr.colName "x", Expr.colName "s"] : List Expr).length ≠ 1 ∧
        ([Expr.colName "x", Expr.colName "s"] : List Expr).length ≠ 2) ∨
      (∃ e1 e2 p1 t1 p2 t2,
        ([Expr.colName "x", Expr.colName "s"] : List Expr) = [e1, e2] ∧
        create_query_plan e1 twoPlainColumns = .ok (p1, t1) ∧
        create_query_plan e2 twoPlainColumns = .ok (p2, t2) ∧
        packFails bitsFor p1 p2 = true) :=
  compile_grouping_key_not_implemented_iff bitsFor (fun mx => bitsFor_pos mx)
    [.colName "x", .colName "s"]
    twoPlainColumns (by
      intro e he
      simp only [List.mem_cons, List.not_mem_nil, or_false] at he
      rcases he with rfl | rfl
      · exact ⟨(.decodeColumn intColumnNoCodec.data,
          intColumnNoCodec.data.full_type.decode), rfl⟩
      · exact ⟨(.decodeColumn strColumnNoCodec.data,
          strColumnNoCodec.data.full_type.decode), rfl⟩)

end Ruba
